import Mathlib

/-!
Verification development for the ThesisCheck backend core:
the structural segmenter (`backend/prompts/thesis_review.py`), the streaming
incremental comment extractor and the review orchestrator
(`backend/services/llm_service.py`).

Paragraph text is modelled as Lean `String` / `List Char`.  Python string
operations are embedded as follows:
* `str.strip()` strips the Python unicode whitespace set, modelled by
  `pySpace` (which also backs the regex class `\s`, since for `str`
  patterns Python's `\s` matches exactly the unicode whitespace set).
* the regex class `\d` is modelled as ASCII digits (`Char.isDigit`);
  no input relevant to any claim contains non-ASCII decimal digits.
* all regexes in the source are anchored, simple patterns; each is embedded
  as a dedicated matcher function.  The texts they are applied to have been
  stripped, so `$` coincides with end-of-string.
-/

/-- Paragraph record: mirrors the `\x7b"index": int, "text": str\x7d` dicts
(and the `ParagraphData` pydantic model). -/
structure Para where
  index : Int
  text : String
deriving DecidableEq, Repr, Inhabited

/-- Python unicode whitespace (the set stripped by `str.strip()` and matched
by `\s` in `str` regex patterns). -/
def pySpace (c : Char) : Bool :=
  c = ' ' || c = '\t' || c = '\n' || c = '\r' || c = '\x0b' || c = '\x0c' ||
  ('\x1c' ≤ c && c ≤ '\x1f') || c = '\x85' || c = '\xa0' || c = ' ' ||
  (' ' ≤ c && c ≤ ' ') || c = ' ' || c = ' ' ||
  c = ' ' || c = ' ' || c = '　'

/-- Python `str.strip()`. -/
def pyStrip (l : List Char) : List Char :=
  ((l.dropWhile pySpace).reverse.dropWhile pySpace).reverse

/-- `re.sub(r"[\x00-\x1f]", "", s)`: remove control characters. -/
def stripCtrl (l : List Char) : List Char :=
  l.filter (fun c => !(c ≤ '\x1f'))

/-- Python `needle in haystack` substring test. -/
def containsSub (pat l : List Char) : Bool :=
  l.tails.any (fun t => pat.isPrefixOf t)

/-- `re.search(r"\t\s*\d+\s*$", text)`: a tab, then whitespace, then a
trailing page number.  Scanned from the right: trailing whitespace, a
non-empty digit run, then a whitespace run that contains (or is preceded
by) a tab.  A tab inside the whitespace run also witnesses the pattern,
since `\s` matches tabs. -/
def tabPageTail (l : List Char) : Bool :=
  let r0 := l.reverse.dropWhile pySpace
  let ds := r0.takeWhile Char.isDigit
  let r1 := r0.dropWhile Char.isDigit
  let w := r1.takeWhile pySpace
  let r2 := r1.dropWhile pySpace
  !ds.isEmpty && (w.contains '\t' || r2.head? == some '\t')

/-- `re.search(r"[.。]{3,}\s*\d+\s*$", text)`: three or more dot leaders
then a trailing page number. -/
def dotsPageTail (l : List Char) : Bool :=
  let r0 := l.reverse.dropWhile pySpace
  let ds := r0.takeWhile Char.isDigit
  let r1 := r0.dropWhile Char.isDigit
  let dots := (r1.dropWhile pySpace).takeWhile (fun c => c = '.' || c = '。')
  !ds.isEmpty && decide (3 ≤ dots.length)

/-- `re.search(r"\x05\s*\d+\s*$", text)`: Word bookmark control char before a
trailing page number (`\x05` is not whitespace, so it must sit directly below
the maximal trailing whitespace-and-digits run). -/
def ctrl5PageTail (l : List Char) : Bool :=
  let r0 := l.reverse.dropWhile pySpace
  let ds := r0.takeWhile Char.isDigit
  let r1 := r0.dropWhile Char.isDigit
  !ds.isEmpty && ((r1.dropWhile pySpace).head? == some '\x05')

/-- `_is_toc_entry`: does a (stripped) paragraph look like a
table-of-contents line? -/
def _is_toc_entry (l : List Char) : Bool :=
  tabPageTail l || dotsPageTail l ||
  containsSub "PAGEREF".toList l || containsSub "HYPERLINK".toList l ||
  l.any (fun c => c = '\x13' || c = '\x14' || c = '\x15') ||
  ctrl5PageTail l

/-- `_is_heading_paragraph`: after removing control characters the text must
contain no Chinese full stop and be at most 60 characters. -/
def _is_heading_paragraph (l : List Char) : Bool :=
  let clean := stripCtrl l
  !(clean.contains '。') && decide (clean.length ≤ 60)

/-- `re.sub(r"\t.*$", "", name)`: drop everything from the first tab on.
Section names reaching this function contain no newline (control characters
were removed when the name was built), so `$` is end-of-string; the guard
below keeps the newline-free precondition explicit. -/
def subTabList : List Char → List Char
  | [] => []
  | c :: rest =>
    if c = '\t' && !rest.contains '\n' then [] else c :: subTabList rest

/-- `re.sub(r"\s*\d+\s*$", "", n)`: remove one trailing
whitespace-digits-whitespace block, if a digit run is present. -/
def stripTrailingNum (l : List Char) : List Char :=
  let r1 := l.reverse.dropWhile pySpace
  let ds := r1.takeWhile Char.isDigit
  if ds.isEmpty then l
  else ((r1.dropWhile Char.isDigit).dropWhile pySpace).reverse

/-- `_normalize_section_name`: tab suffix, trailing page number, control
characters and all whitespace removed (the final `strip()` is the identity
once all whitespace is gone). -/
def _normalize_section_name (s : String) : String :=
  let n1 := subTabList s.toList
  let n2 := stripTrailingNum n1
  let n3 := stripCtrl n2
  String.mk (n3.filter (fun c => !pySpace c))

/-- Matcher for `^(a\s*b)$` (e.g. `^(摘\s*要)$`): tail must be whitespace
then the closing char at end-of-string. -/
def spacesThenEnd (b : Char) : List Char → Bool
  | [] => false
  | [c] => c = b
  | c :: rest => pySpace c && spacesThenEnd b rest

/-- Matcher for `^(a\s*b)` as a non-anchored tail (e.g. `^(附\s*录)`):
whitespace then the char `b`, anything may follow. -/
def spacesThenChar (b : Char) : List Char → Bool
  | [] => false
  | c :: rest => if pySpace c then spacesThenChar b rest else c = b

/-- `^(a\s*b)$`. -/
def sandwichEnd (a b : Char) (l : List Char) : Bool :=
  match l with
  | c :: rest => c = a && spacesThenEnd b rest
  | [] => false

/-- `^(a\s*b)` (prefix match). -/
def sandwichPre (a b : Char) (l : List Char) : Bool :=
  match l with
  | c :: rest => c = a && spacesThenChar b rest
  | [] => false

/-- `^(ABSTRACT|Abstract)$`. -/
def matchAbstractEn (l : List Char) : Bool :=
  l == "ABSTRACT".toList || l == "Abstract".toList

/-- Chinese numerals 一..十 used by the chapter patterns. -/
def cnNum (c : Char) : Bool :=
  c = '一' || c = '二' || c = '三' || c = '四' || c = '五' ||
  c = '六' || c = '七' || c = '八' || c = '九' || c = '十'

/-- `^(第[一二三四五六七八九十\d]+章)(?:\s|$)`. -/
def matchDiZhang (l : List Char) : Bool :=
  match l with
  | c :: rest =>
    c = '第' &&
    (let ds := rest.takeWhile (fun d => cnNum d || d.isDigit)
     let r := rest.dropWhile (fun d => cnNum d || d.isDigit)
     !ds.isEmpty &&
     (match r with
      | c2 :: tail => c2 = '章' && (tail.isEmpty || pySpace (tail.headD ' '))
      | [] => false))
  | [] => false

/-- `^([一二三四五六七八九十]+)、`. -/
def matchEnumDun (l : List Char) : Bool :=
  let ds := l.takeWhile cnNum
  !ds.isEmpty && ((l.dropWhile cnNum).head? == some '、')

/-- `^(\d+)\s+\S`: a digit run, at least one whitespace, then any non-space
character. -/
def matchNumHead (l : List Char) : Bool :=
  let ds := l.takeWhile Char.isDigit
  let r := l.dropWhile Char.isDigit
  let w := r.takeWhile pySpace
  let r2 := r.dropWhile pySpace
  !ds.isEmpty && !w.isEmpty && !r2.isEmpty

/-- `^(绪\s*论.{0,20})$`: 绪, whitespace, 论, then at most 20 further
characters none of which is a newline (`.` does not match `\n`). -/
def xulunTail : List Char → Bool
  | [] => false
  | c :: rest =>
    if pySpace c then xulunTail rest
    else c = '论' && decide (rest.length ≤ 20) && !rest.contains '\n'

/-- `^(绪\s*论.{0,20})$`. -/
def matchXulunSub (l : List Char) : Bool :=
  match l with
  | c :: rest => c = '绪' && xulunTail rest
  | [] => false

/-- `^(参考文献)$`. -/
def matchCankao (l : List Char) : Bool :=
  l == "参考文献".toList

/-- `_SECTION_PATTERNS`: the heading-recognition priority table, in source
order. -/
def _SECTION_PATTERNS : List ((List Char → Bool) × String) :=
  [ (sandwichEnd '摘' '要', "abstract"),
    (matchAbstractEn, "abstract"),
    (matchDiZhang, "chapter"),
    (matchEnumDun, "chapter"),
    (matchNumHead, "chapter"),
    (sandwichEnd '绪' '论', "chapter"),
    (sandwichEnd '引' '言', "chapter"),
    (sandwichEnd '导' '论', "chapter"),
    (sandwichEnd '结' '论', "chapter"),
    (sandwichEnd '总' '结', "chapter"),
    (matchXulunSub, "chapter"),
    (matchCankao, "references"),
    (sandwichEnd '致' '谢', "appendix"),
    (sandwichPre '附' '录', "appendix"),
    (sandwichEnd '目' '录', "toc") ]

/-- The per-paragraph rule scan of `detect_sections` (lines 248—258): the
first matching rule applies; a match classified `chapter` that fails the
heading test makes the scan stop with no boundary (`break`). -/
def scanRules : List ((List Char → Bool) × String) → List Char → Option String
  | [], _ => none
  | (pat, ty) :: rest, text =>
    if pat text then
      if ty == "chapter" && !_is_heading_paragraph text then none
      else some ty
    else scanRules rest text

/-- Modelled from the spec: the reject-and-continue variant of the rule
scan, in which a rejected chapter match lets the scanner keep evaluating
the remaining rules of the priority table for the same paragraph. -/
def scanRulesCont : List ((List Char → Bool) × String) → List Char →
    Option String
  | [], _ => none
  | (pat, ty) :: rest, text =>
    if pat text then
      if ty == "chapter" && !_is_heading_paragraph text then
        scanRulesCont rest text
      else some ty
    else scanRulesCont rest text

/-- One iteration of the boundary-detection loop of `detect_sections`:
given the TOC flag and a paragraph's raw text, returns the optional
boundary `(clean_name, type)` and the updated TOC flag. -/
def perPara (inToc : Bool) (text : String) : Option (String × String) × Bool :=
  let raw := pyStrip text.toList
  if raw.isEmpty then (none, inToc)
  else
    let clean := pyStrip (stripCtrl raw)
    if clean.isEmpty then (none, inToc)
    else if sandwichEnd '目' '录' clean then (some (String.mk clean, "toc"), true)
    else if _is_toc_entry raw then (none, inToc)
    else
      match scanRules _SECTION_PATTERNS clean with
      | some ty => (some (String.mk clean, ty), false)
      | none => (none, false)

/-- The first pass of `detect_sections`: collect all boundary triples
`(list_pos, name, type)` walking the paragraph list in order. -/
def scanBoundaries : List Para → Nat → Bool → List (Nat × String × String)
  | [], _, _ => []
  | p :: rest, pos, inToc =>
    match perPara inToc p.text with
    | (some (n, t), inToc') => (pos, n, t) :: scanBoundaries rest (pos + 1) inToc'
    | (none, inToc') => scanBoundaries rest (pos + 1) inToc'

/-- Boundaries of a paragraph list (initial position 0, not inside a TOC). -/
def boundariesOf (ps : List Para) : List (Nat × String × String) :=
  scanBoundaries ps 0 false

/-- Detected section (the `Section` dataclass). -/
structure Section where
  name : String
  section_type : String
  start_para_idx : Int
  end_para_idx : Int
  paragraphs : List Para
deriving DecidableEq, Repr, Inhabited

/-- Build a `Section` from a paragraph slice; an empty slice yields no
section (the `if section_paras:` / `if cover_paras:` guards). -/
def mkSection (n ty : String) (paras : List Para) : List Section :=
  match paras with
  | [] => []
  | p :: rest =>
    [⟨n, ty, p.index, ((p :: rest).getLast?.getD p).index, p :: rest⟩]

/-- Sections built from the boundary list: each boundary runs up to the
next boundary's position (exclusive), the last one to the end. -/
def buildFrom (ps : List Para) : List (Nat × String × String) → List Section
  | [] => []
  | [(pos, n, t)] => mkSection n t (ps.drop pos)
  | (pos, n, t) :: b2 :: rest =>
    mkSection n t ((ps.drop pos).take (b2.1 - pos)) ++ buildFrom ps (b2 :: rest)

/-- The synthetic cover section holding the paragraphs before the first
boundary. -/
def coverSection (ps : List Para) (firstPos : Nat) : List Section :=
  if firstPos > 0 then mkSection "封面与题目" "cover" (ps.take firstPos) else []

/-- Cover plus boundary-delimited sections (lines 264—300). -/
def builtSections (ps : List Para) (bounds : List (Nat × String × String)) :
    List Section :=
  match bounds with
  | [] => []
  | (pos, _, _) :: _ => coverSection ps pos ++ buildFrom ps bounds

/-- `_fallback_chunking` body: fixed-size chunks of 30 paragraphs named by
ordinal position.  The first argument is recursion fuel (the list length
suffices, since every step drops 30 elements of a non-empty list); it
makes the recursion structural so that the function reduces by
computation. -/
def fallbackAux : Nat → List Para → Nat → List Section
  | _, [], _ => []
  | 0, _ :: _, _ => []
  | fuel + 1, p :: rest, num =>
    mkSection ("第" ++ toString num ++ "部分") "chapter" ((p :: rest).take 30) ++
    fallbackAux fuel ((p :: rest).drop 30) (num + 1)

/-- `_fallback_chunking` with the default batch size 30. -/
def _fallback_chunking (ps : List Para) : List Section :=
  fallbackAux ps.length ps 1

/-- Merge a small section into the preceding one of the same type
(the `merged[-1]` mutation). -/
def mergeAbsorb (prev sec : Section) : Section :=
  { prev with
    paragraphs := prev.paragraphs ++ sec.paragraphs,
    end_para_idx := sec.end_para_idx,
    name := prev.name ++ " / " ++ sec.name }

/-- The fold of `_merge_small_sections`, carrying the accumulator in
reverse order. -/
def mergeGo : List Section → List Section → List Section
  | racc, [] => racc.reverse
  | racc, sec :: rest =>
    match racc with
    | prev :: racc' =>
      if decide (sec.paragraphs.length < 3) && sec.section_type == prev.section_type
      then mergeGo (mergeAbsorb prev sec :: racc') rest
      else mergeGo (sec :: prev :: racc') rest
    | [] => mergeGo [sec] rest

/-- `_merge_small_sections` with the default threshold 3. -/
def _merge_small_sections (secs : List Section) : List Section :=
  if secs.length ≤ 1 then secs else mergeGo [] secs

/-- Python `max(g0 :: gs, key=f)`: the first element attaining the maximal
key (the accumulator is replaced only on a strictly greater key). -/
def pyMaxKey (f : Nat → Nat) : Nat → List Nat → Nat
  | best, [] => best
  | best, j :: rest => pyMaxKey f (if f j > f best then j else best) rest

/-- Paragraph count of the i-th section (shorthand used by the dedup
embedding). -/
def secCount (secs : List Section) (i : Nat) : Nat :=
  ((secs.getD i default).paragraphs).length

/-- Normalized name of the i-th section. -/
def secNorm (secs : List Section) (i : Nat) : String :=
  _normalize_section_name (secs.getD i default).name

/-- Indices sharing the i-th section's normalized name, in index order.
This is the `name_groups` group containing `i` (`defaultdict` grouping by
first occurrence appends indices in increasing order). -/
def dedupGroup (secs : List Section) (i : Nat) : List Nat :=
  (List.range secs.length).filter (fun j => secNorm secs j == secNorm secs i)

/-- Is index `i` in `remove_indices`?  Indices whose normalized name is
empty are never grouped (`if norm:`), hence never removed; in a group of
size at least 2 everything except the first index with the most paragraphs
(`max(indices, key=...)`) is removed. -/
def removedIdx (secs : List Section) (i : Nat) : Bool :=
  if secNorm secs i == "" then false
  else
    match dedupGroup secs i with
    | [] => false
    | g0 :: gs =>
      decide (2 ≤ (g0 :: gs).length) &&
      !(i == pyMaxKey (secCount secs) g0 gs)

/-- `_deduplicate_sections`: drop the removed indices, preserving order. -/
def _deduplicate_sections (secs : List Section) : List Section :=
  if secs.length ≤ 1 then secs
  else (secs.enum.filter (fun p => !removedIdx secs p.1)).map Prod.snd

/-- The sections of `detect_sections` just before the deduplication pass
(fallback chunks when no boundary was found). -/
def sectionsBeforeDedup (ps : List Para) : List Section :=
  match boundariesOf ps with
  | [] => _fallback_chunking ps
  | bs => _merge_small_sections (builtSections ps bs)

/-- `detect_sections`: the full segmenter. -/
def detect_sections (ps : List Para) : List Section :=
  if ps.isEmpty then []
  else
    match boundariesOf ps with
    | [] => _fallback_chunking ps
    | bs => _deduplicate_sections (_merge_small_sections (builtSections ps bs))

/-!
JSON values and a model of Python's `json.loads`, as used by
`try_extract_single_comment` and `extract_comments_from_json`.
Numbers with a fraction or exponent are kept as exact decimals
`m * 10 ^ e` (Python's binary-float rounding is not modelled; no claim
depends on it).  A lone surrogate escape decodes to U+FFFD (Python keeps
the surrogate code point, which a Lean `Char` cannot hold).
-/

/-- JSON value (shape of Python `json.loads` results). -/
inductive JVal where
  | jnull
  | jbool (b : Bool)
  | jint (n : Int)
  | jdec (m : Int) (e : Int)
  | jnan
  | jinf (neg : Bool)
  | jstr (s : List Char)
  | jarr (xs : List JVal)
  | jobj (kvs : List (List Char × JVal))

/-- JSON inter-token whitespace (`' \t\n\r'`). -/
def jws (l : List Char) : List Char :=
  l.dropWhile (fun c => c = ' ' || c = '\t' || c = '\n' || c = '\r')

/-- Hex digit value. -/
def hexVal (c : Char) : Option Nat :=
  if '0' ≤ c && c ≤ '9' then some (c.toNat - 48)
  else if 'a' ≤ c && c ≤ 'f' then some (c.toNat - 87)
  else if 'A' ≤ c && c ≤ 'F' then some (c.toNat - 55)
  else none

/-- Four hex digits. -/
def parseHex4 : List Char → Option (Nat × List Char)
  | a :: b :: c :: d :: rest =>
    match hexVal a, hexVal b, hexVal c, hexVal d with
    | some x, some y, some z, some w => some ((((x * 16 + y) * 16 + z) * 16 + w), rest)
    | _, _, _, _ => none
  | _ => none

/-- JSON string body (after the opening quote), strict mode: raw control
characters are rejected; the standard escapes and `\uXXXX` (with surrogate
pairs) are decoded. -/
def jstringGo : Nat → List Char → List Char → Option (List Char × List Char)
  | 0, _, _ => none
  | _ + 1, _, [] => none
  | fuel + 1, acc, c :: rest =>
    if c = '"' then some (acc.reverse, rest)
    else if c = '\\' then
      match rest with
      | [] => none
      | e :: rest2 =>
        if e = '"' then jstringGo fuel ('"' :: acc) rest2
        else if e = '\\' then jstringGo fuel ('\\' :: acc) rest2
        else if e = '/' then jstringGo fuel ('/' :: acc) rest2
        else if e = 'b' then jstringGo fuel ('\x08' :: acc) rest2
        else if e = 'f' then jstringGo fuel ('\x0c' :: acc) rest2
        else if e = 'n' then jstringGo fuel ('\n' :: acc) rest2
        else if e = 'r' then jstringGo fuel ('\r' :: acc) rest2
        else if e = 't' then jstringGo fuel ('\t' :: acc) rest2
        else if e = 'u' then
          match parseHex4 rest2 with
          | none => none
          | some (n, rest3) =>
            if 0xD800 ≤ n && n ≤ 0xDBFF then
              match rest3 with
              | '\\' :: 'u' :: rest4 =>
                match parseHex4 rest4 with
                | some (m, rest5) =>
                  if 0xDC00 ≤ m && m ≤ 0xDFFF then
                    jstringGo fuel
                      (Char.ofNat (0x10000 + (n - 0xD800) * 0x400 + (m - 0xDC00)) :: acc)
                      rest5
                  else jstringGo fuel ('�' :: acc) rest3
                | none => jstringGo fuel ('�' :: acc) rest3
              | _ => jstringGo fuel ('�' :: acc) rest3
            else if 0xDC00 ≤ n && n ≤ 0xDFFF then jstringGo fuel ('�' :: acc) rest3
            else jstringGo fuel (Char.ofNat n :: acc) rest3
        else none
    else if c.toNat < 0x20 then none
    else jstringGo fuel (c :: acc) rest

/-- Digits of a run as a natural number. -/
def digitsToNat (l : List Char) : Nat :=
  l.foldl (fun a c => a * 10 + (c.toNat - 48)) 0

/-- JSON number after an optional leading minus: grammar
`(0|[1-9][0-9]*)(\.[0-9]+)?([eE][+-]?[0-9]+)?`; pure integers become
`jint`, anything with a fraction or exponent an exact-decimal `jdec`. -/
def parseNumTail (neg : Bool) (l : List Char) : Option (JVal × List Char) :=
  match l with
  | [] => none
  | c :: rest =>
    if !c.isDigit then none
    else
      let ip := if c = '0' then ([c], rest)
                else (l.takeWhile Char.isDigit, l.dropWhile Char.isDigit)
      let fp :=
        match ip.2 with
        | '.' :: r1 =>
          let ds := r1.takeWhile Char.isDigit
          if ds.isEmpty then ([], ip.2) else (ds, r1.dropWhile Char.isDigit)
        | _ => ([], ip.2)
      let ep :=
        match fp.2 with
        | 'e' :: '+' :: r1 =>
          let ds := r1.takeWhile Char.isDigit
          if ds.isEmpty then (none, fp.2)
          else (some (Int.ofNat (digitsToNat ds)), r1.dropWhile Char.isDigit)
        | 'e' :: '-' :: r1 =>
          let ds := r1.takeWhile Char.isDigit
          if ds.isEmpty then (none, fp.2)
          else (some (-(Int.ofNat (digitsToNat ds))), r1.dropWhile Char.isDigit)
        | 'e' :: r1 =>
          let ds := r1.takeWhile Char.isDigit
          if ds.isEmpty then (none, fp.2)
          else (some (Int.ofNat (digitsToNat ds)), r1.dropWhile Char.isDigit)
        | 'E' :: '+' :: r1 =>
          let ds := r1.takeWhile Char.isDigit
          if ds.isEmpty then (none, fp.2)
          else (some (Int.ofNat (digitsToNat ds)), r1.dropWhile Char.isDigit)
        | 'E' :: '-' :: r1 =>
          let ds := r1.takeWhile Char.isDigit
          if ds.isEmpty then (none, fp.2)
          else (some (-(Int.ofNat (digitsToNat ds))), r1.dropWhile Char.isDigit)
        | 'E' :: r1 =>
          let ds := r1.takeWhile Char.isDigit
          if ds.isEmpty then (none, fp.2)
          else (some (Int.ofNat (digitsToNat ds)), r1.dropWhile Char.isDigit)
        | _ => (none, fp.2)
      let sign : Int := if neg then -1 else 1
      if fp.1.isEmpty && ep.1.isNone then
        some (.jint (sign * Int.ofNat (digitsToNat ip.1)), ip.2)
      else
        let mant : Int := sign * Int.ofNat (digitsToNat (ip.1 ++ fp.1))
        let ex : Int := ep.1.getD 0 - Int.ofNat fp.1.length
        some (.jdec mant ex, ep.2)

/-- Insert a key into an object in Python `dict` style: an existing key is
updated in place, a new key is appended. -/
def objInsert (kvs : List (List Char × JVal)) (k : List Char) (v : JVal) :
    List (List Char × JVal) :=
  if kvs.any (fun p => p.1 == k) then
    kvs.map (fun p => if p.1 == k then (p.1, v) else p)
  else kvs ++ [(k, v)]

mutual

/-- JSON value parser (fuel-indexed; the fuel passed by `json_loads`
always suffices, since every recursive level consumes input). -/
def pjVal : Nat → List Char → Option (JVal × List Char)
  | 0, _ => none
  | fuel + 1, l =>
    match l with
    | [] => none
    | '"' :: rest => (jstringGo (rest.length + 1) [] rest).map (fun p => (.jstr p.1, p.2))
    | '{' :: rest => pjObjStart fuel (jws rest)
    | '[' :: rest => pjArrStart fuel (jws rest)
    | 't' :: 'r' :: 'u' :: 'e' :: rest => some (.jbool true, rest)
    | 'f' :: 'a' :: 'l' :: 's' :: 'e' :: rest => some (.jbool false, rest)
    | 'n' :: 'u' :: 'l' :: 'l' :: rest => some (.jnull, rest)
    | 'N' :: 'a' :: 'N' :: rest => some (.jnan, rest)
    | 'I' :: 'n' :: 'f' :: 'i' :: 'n' :: 'i' :: 't' :: 'y' :: rest =>
      some (.jinf false, rest)
    | '-' :: 'I' :: 'n' :: 'f' :: 'i' :: 'n' :: 'i' :: 't' :: 'y' :: rest =>
      some (.jinf true, rest)
    | '-' :: rest => parseNumTail true rest
    | _ => parseNumTail false l

/-- Array after `[` and whitespace. -/
def pjArrStart : Nat → List Char → Option (JVal × List Char)
  | 0, _ => none
  | fuel + 1, l =>
    match l with
    | ']' :: rest => some (.jarr [], rest)
    | _ => pjArrLoop fuel l []

/-- Array element loop. -/
def pjArrLoop : Nat → List Char → List JVal → Option (JVal × List Char)
  | 0, _, _ => none
  | fuel + 1, l, acc =>
    match pjVal fuel l with
    | none => none
    | some (v, r) =>
      match jws r with
      | ',' :: r2 => pjArrLoop fuel (jws r2) (acc ++ [v])
      | ']' :: r2 => some (.jarr (acc ++ [v]), r2)
      | _ => none

/-- Object after `{` and whitespace. -/
def pjObjStart : Nat → List Char → Option (JVal × List Char)
  | 0, _ => none
  | fuel + 1, l =>
    match l with
    | '}' :: rest => some (.jobj [], rest)
    | _ => pjObjLoop fuel l []

/-- Object member loop. -/
def pjObjLoop : Nat → List Char → List (List Char × JVal) →
    Option (JVal × List Char)
  | 0, _, _ => none
  | fuel + 1, l, acc =>
    match l with
    | '"' :: rest =>
      match jstringGo (rest.length + 1) [] rest with
      | none => none
      | some (k, r1) =>
        match jws r1 with
        | ':' :: r2 =>
          match pjVal fuel (jws r2) with
          | none => none
          | some (v, r3) =>
            match jws r3 with
            | ',' :: r4 => pjObjLoop fuel (jws r4) (objInsert acc k v)
            | '}' :: r4 => some (.jobj (objInsert acc k v), r4)
            | _ => none
        | _ => none
    | _ => none

end

/-- Model of Python `json.loads`: parse one value surrounded by optional
whitespace; trailing data is an error. -/
def json_loads (s : String) : Option JVal :=
  let l := jws s.toList
  match pjVal (l.length + 1) l with
  | some (v, rest) => if (jws rest).isEmpty then some v else none
  | none => none

/-- Key-membership test on a JSON object (`"k" in c`). -/
def hasKey (kvs : List (List Char × JVal)) (k : List Char) : Bool :=
  kvs.any (fun p => p.1 == k)

/-- `c.get(k)` on a JSON object. -/
def objGet (kvs : List (List Char × JVal)) (k : List Char) : Option JVal :=
  (kvs.find? (fun p => p.1 == k)).map Prod.snd

/-- `ReviewComment` (pydantic model: int, str, str, str fields). -/
structure ReviewComment where
  paragraph_index : Int
  target_text : String
  comment : String
  severity : String
deriving DecidableEq, Repr, Inhabited

/-- Pydantic v2 lax validation of a `str` field: only JSON strings are
accepted (v2 does not coerce numbers to strings). -/
def pydStrField : JVal → Option String
  | .jstr s => some (String.mk s)
  | _ => none

/-- Pydantic v2 lax coercion of a string to an int: optional sign and
decimal digits (modelled without the rarely-hit underscore/whitespace
variants). -/
def strToInt : List Char → Option Int
  | '-' :: rest =>
    if !rest.isEmpty && rest.all Char.isDigit then some (-(Int.ofNat (digitsToNat rest)))
    else none
  | '+' :: rest =>
    if !rest.isEmpty && rest.all Char.isDigit then some (Int.ofNat (digitsToNat rest))
    else none
  | s =>
    if !s.isEmpty && s.all Char.isDigit then some (Int.ofNat (digitsToNat s))
    else none

/-- Pydantic v2 lax validation of an `int` field: ints pass, bools are
rejected, exact-integral decimals are truncated to their value, numeric
strings are coerced; everything else fails. -/
def pydIntField : JVal → Option Int
  | .jint n => some n
  | .jdec m e =>
    if 0 ≤ e then some (m * (10 : Int) ^ e.toNat)
    else if ((10 : Int) ^ (-e).toNat) ∣ m then some (m / (10 : Int) ^ (-e).toNat)
    else none
  | .jstr s => strToInt s
  | _ => none

/-- `ReviewComment(...)` construction with pydantic validation; a
validation error is `none` (the caller catches it). -/
def mkReviewComment (pi tt cm sv : JVal) : Option ReviewComment :=
  match pydIntField pi, pydStrField tt, pydStrField cm, pydStrField sv with
  | some a, some b, some c, some d => some ⟨a, b, c, d⟩
  | _, _, _, _ => none

/-- `try_extract_single_comment`: parse a JSON fragment; a dict containing
both `target_text` and `comment` is turned into a `ReviewComment` with the
source's defaults, anything else (or a validation failure) is `none`. -/
def try_extract_single_comment (s : String) : Option ReviewComment :=
  match json_loads s with
  | some (.jobj kvs) =>
    if hasKey kvs "target_text".toList && hasKey kvs "comment".toList then
      mkReviewComment
        ((objGet kvs "paragraph_index".toList).getD (.jint 0))
        ((objGet kvs "target_text".toList).getD (.jstr []))
        ((objGet kvs "comment".toList).getD (.jstr []))
        ((objGet kvs "severity".toList).getD (.jstr "suggestion".toList))
    else none
  | _ => none

/-- One raw comment entry of `extract_comments_from_json`: a dict becomes a
validated `ReviewComment`, a non-dict element raises inside the inner
`try` and is skipped. -/
def commentFromRaw (v : JVal) : Option ReviewComment :=
  match v with
  | .jobj kvs =>
    mkReviewComment
      ((objGet kvs "paragraph_index".toList).getD (.jint 0))
      ((objGet kvs "target_text".toList).getD (.jstr []))
      ((objGet kvs "comment".toList).getD (.jstr []))
      ((objGet kvs "severity".toList).getD (.jstr "suggestion".toList))
  | _ => none

/-- `extract_comments_from_json`.  `none` models an uncaught exception
(`.get` on a non-dict / iterating a non-iterable); a parse failure is
caught and yields `[]`; iterating a string or dict yields elements that are
all skipped by the inner handler. -/
def extract_comments_from_json (s : String) : Option (List ReviewComment) :=
  match json_loads s with
  | none => some []
  | some (.jobj kvs) =>
    match (objGet kvs "comments".toList).getD (.jarr []) with
    | .jarr xs => some (xs.filterMap commentFromRaw)
    | .jstr _ => some []
    | .jobj _ => some []
    | _ => none
  | some _ => none

/-!
The incremental scanner of `_stream_single_batch` (lines 149—220).  The
per-fragment `while` loop scans exactly the newly appended characters, and
the conditions it evaluates at buffer position `i` (`'"comments"' in
buffer[:i]`, the slice `buffer[current_object_start : i + 1]`) only involve
the processed prefix, so the loop is embedded as a per-character step
function over a state that carries the processed prefix as `buffer`.
-/

/-- Scanner state of `_stream_single_batch`: the accumulated buffer (the
processed prefix), the `in_comments_array` flag, the brace-depth counter
(a Python int: it may go negative), the `current_object_start` offset
(`-1` when no object is open) and the comments emitted so far
(`emitted_count` is the length of `emitted`). -/
structure ScanState where
  buffer : List Char
  in_comments_array : Bool
  brace_depth : Int
  current_object_start : Int
  emitted : List ReviewComment
deriving DecidableEq, Repr

/-- Initial scanner state. -/
def initScanState : ScanState :=
  { buffer := [], in_comments_array := false, brace_depth := 0,
    current_object_start := -1, emitted := [] }

/-- The quoted field name `"comments"` searched for in the buffer prefix. -/
def quotedComments : List Char := "\"comments\"".toList

/-- Process one buffer character (the body of the `while i < len(buffer)`
loop at lines 191—214). -/
def charStep (st : ScanState) (c : Char) : ScanState :=
  let i : Int := Int.ofNat st.buffer.length
  let buf := st.buffer ++ [c]
  if !st.in_comments_array then
    if c = '[' && containsSub quotedComments st.buffer then
      { st with buffer := buf, in_comments_array := true }
    else { st with buffer := buf }
  else
    if c = '{' then
      { st with
        buffer := buf
        brace_depth := st.brace_depth + 1
        current_object_start :=
          if st.brace_depth = 0 then i else st.current_object_start }
    else if c = '}' then
      let d := st.brace_depth - 1
      if d = 0 && st.current_object_start ≥ 0 then
        let objStr := buf.drop st.current_object_start.toNat
        { st with
          buffer := buf
          brace_depth := d
          current_object_start := -1
          emitted :=
            match try_extract_single_comment (String.mk objStr) with
            | some r => st.emitted ++ [r]
            | none => st.emitted }
      else { st with buffer := buf, brace_depth := d }
    else if c = ']' then { st with buffer := buf, in_comments_array := false }
    else { st with buffer := buf }

/-- Run the extractor over a fragment sequence: each fragment is appended
to the buffer and its characters are scanned (an empty fragment is a
no-op, matching the `if delta.content:` guard). -/
def streamBatchState (frags : List String) : ScanState :=
  frags.foldl (fun st f => f.toList.foldl charStep st) initScanState

/-- The Record events of `_stream_single_batch`: the incrementally emitted
comments, or — when none were emitted — the whole-buffer fallback parse
(`none` models the fallback raising). -/
def streamBatchRecords (frags : List String) : Option (List ReviewComment) :=
  let st := streamBatchState frags
  if st.emitted.isEmpty then extract_comments_from_json (String.mk st.buffer)
  else some st.emitted

/-!
The review orchestrator `review_paragraphs_stream` (lines 223—334).  The
provider call and prompt assembly for one eligible section are abstracted
by an oracle giving each eligible-section position its outcome: a clean
drain of the per-section event stream, or an exception raised after some
prefix of those events.  SSE events are modelled structurally (the
`json.dumps` envelope of each `data` payload is a boundary concern).
-/

/-- Event forwarded from a section's stream: a raw text chunk or a parsed
comment. -/
inductive BatchEvent where
  | btext (s : String)
  | bcomment (c : ReviewComment)
deriving DecidableEq, Repr

/-- Outcome of one section's provider call and stream drain. -/
inductive StreamOutcome where
  | ok (events : List BatchEvent)
  | fail (events : List BatchEvent) (msg : String)
deriving DecidableEq, Repr

/-- SSE event of the orchestrator. -/
inductive SSEEvent where
  | progress (current_batch total_batches : Nat) (message : String)
  | etext (content : String)
  | ecomment (c : ReviewComment)
  | eerror (message : String)
  | edone
deriving DecidableEq, Repr

/-- Forward a section-stream event as an SSE event. -/
def liftEv : BatchEvent → SSEEvent
  | .btext s => .etext s
  | .bcomment c => .ecomment c

/-- The eligible sections: `cover` and `toc` sections are filtered out
before the per-section iteration (lines 253—254). -/
def eligibleSections (ps : List Para) : List Section :=
  (detect_sections ps).filter
    (fun s => !(s.section_type == "cover" || s.section_type == "toc"))

/-- The initial progress message. -/
def startMsg (nAll total : Nat) : String :=
  "已检测到 " ++ toString nAll ++ " 个章节，跳过封面/目录，评审 " ++
  toString total ++ " 个部分..."

/-- The per-batch progress message (`正在评审第 {i}/{total}: {name}`). -/
def progressMsg (i total : Nat) (name : String) : String :=
  "正在评审第 " ++ toString i ++ "/" ++ toString total ++ ": " ++ name

/-- The per-section error message (`评审 {name} 出错: {msg}`). -/
def sectionErrorMsg (name msg : String) : String :=
  "评审 " ++ name ++ " 出错: " ++ msg

/-- Events produced for one eligible section: its progress event, then the
forwarded stream events; on failure the single error event replaces the
rest of the stream and iteration continues with the next section. -/
def sectionBlock (total : Nat) (ix : Nat) (sec : Section)
    (outcome : StreamOutcome) : List SSEEvent :=
  SSEEvent.progress (ix + 1) total (progressMsg (ix + 1) total sec.name) ::
  (match outcome with
   | .ok evs => evs.map liftEv
   | .fail pre m => pre.map liftEv ++ [SSEEvent.eerror (sectionErrorMsg sec.name m)])

/-- `review_paragraphs_stream` as the full SSE event sequence it yields:
the initial progress event, the per-eligible-section blocks in document
order, and the terminal done event. -/
def review_paragraphs_stream (ps : List Para) (oracle : Nat → StreamOutcome) :
    List SSEEvent :=
  let all := detect_sections ps
  let secs := eligibleSections ps
  let total := secs.length
  SSEEvent.progress 0 total (startMsg all.length total) ::
  ((secs.enum.flatMap (fun p => sectionBlock total p.1 p.2 (oracle p.1))) ++
   [SSEEvent.edone])

/-- Is an SSE event the terminal done event? -/
def isDoneEv : SSEEvent → Bool
  | .edone => true
  | _ => false

/-- Is an SSE event a section error event? -/
def isErrorEv : SSEEvent → Bool
  | .eerror _ => true
  | _ => false

/-- Did a section's outcome fail? -/
def isFailOutcome : StreamOutcome → Bool
  | .fail _ _ => true
  | .ok _ => false

/-!
Spec-side predicates used to state (and refute) the claims.
-/

/-- The coverage half of claim C1, following its words: every paragraph
whose stripped text is non-empty and which is not an intentionally dropped
TOC entry appears in some final Section. -/
def C1Covers (ps : List Para) : Prop :=
  ∀ p ∈ ps, pyStrip p.text.toList ≠ [] →
    _is_toc_entry (pyStrip p.text.toList) = false →
    ∃ sec ∈ detect_sections ps, p ∈ sec.paragraphs

/-- Modelled from the spec (amended claim C8): keep a section iff its
normalized name is empty (such sections are never grouped), or its group
is a singleton, or it is the first index of its group attaining the
maximal paragraph count. -/
def keepSpec (secs : List Section) (i : Nat) : Bool :=
  secNorm secs i == "" ||
  decide ((dedupGroup secs i).length ≤ 1) ||
  (dedupGroup secs i).all
    (fun j => decide (secCount secs j < secCount secs i) ||
      (secCount secs j == secCount secs i && decide (i ≤ j)))

/-- Modelled from the spec (amended claim C8): the deduplication pass as a
pointwise keep/discard filter preserving the original order. -/
def dedupSpec (secs : List Section) : List Section :=
  (secs.enum.filter (fun p => keepSpec secs p.1)).map Prod.snd

/-!
Claim theorems.
-/

/-- Concrete scanner state for claim C4: the prefix has entered the
comments array and an object with a nested array is open (brace depth 1). -/
def c4state : ScanState :=
  "\x7b\"comments\": [\x7b\"x\": [".toList.foldl charStep initScanState

/-- Claim C4 counterexample: in a state that is inside the comments array
at brace depth 1 (greater than 0), a closing square bracket still flips the
"inside array" flag off, contradicting the claim that a `]` seen at brace
depth greater than 0 leaves the flag unchanged. -/
theorem thesis_C4_cex :
    c4state.in_comments_array = true ∧ c4state.brace_depth = 1 ∧
    (charStep c4state ']').in_comments_array = false := by decide

/-- Claim C4 (amended): while the scanner is inside the comments array, a
processed character turns the "inside array" flag off exactly when it is a
closing square bracket — regardless of the brace-depth counter. -/
theorem thesis_C4 (st : ScanState) (c : Char) (h : st.in_comments_array = true) :
    (charStep st c).in_comments_array = false ↔ c = ']' := by
  unfold charStep
  simp only [h, Bool.not_true]
  by_cases h1 : c = '{'
  · subst h1
    simp
  · by_cases h2 : c = '}'
    · subst h2
      simp only [if_neg (by decide : ¬('}' = '{')), if_pos rfl]
      by_cases h3 : st.brace_depth - 1 = 0 && st.current_object_start ≥ 0
      · simp [h3, h]
      · simp [h3, h]
    · by_cases h4 : c = ']'
      · subst h4
        simp
      · simp [h1, h2, h4, h]

/-- Claim C4 witness: the amended theorem applied at the concrete state
`c4state` (flag on, depth 1) and the character `]`. -/
theorem thesis_C4_witness : (charStep c4state ']').in_comments_array = false :=
  (thesis_C4 c4state ']' (by decide)).mpr rfl

/-- Equation for `try_extract_single_comment` when the input parses as an
object. -/
theorem tryExtract_eq_of_obj (s : String) (kvs : List (List Char × JVal))
    (hj : json_loads s = some (.jobj kvs)) :
    try_extract_single_comment s =
      if hasKey kvs "target_text".toList && hasKey kvs "comment".toList then
        mkReviewComment
          ((objGet kvs "paragraph_index".toList).getD (.jint 0))
          ((objGet kvs "target_text".toList).getD (.jstr []))
          ((objGet kvs "comment".toList).getD (.jstr []))
          ((objGet kvs "severity".toList).getD (.jstr "suggestion".toList))
      else none := by
  unfold try_extract_single_comment
  rw [hj]

/-- Equation for `try_extract_single_comment` on a parse failure. -/
theorem tryExtract_eq_of_none (s : String) (hj : json_loads s = none) :
    try_extract_single_comment s = none := by
  unfold try_extract_single_comment
  rw [hj]

/-- Equation for `try_extract_single_comment` on a non-object result. -/
theorem tryExtract_eq_of_nonobj (s : String) (v : JVal)
    (hj : json_loads s = some v) (hv : ∀ kvs, v ≠ .jobj kvs) :
    try_extract_single_comment s = none := by
  unfold try_extract_single_comment
  rw [hj]
  match v, hv with
  | .jnull, _ | .jbool _, _ | .jint _, _ | .jdec _ _, _
  | .jnan, _ | .jinf _, _ | .jstr _, _ | .jarr _, _ => rfl
  | .jobj kvs, hv => exact absurd rfl (hv kvs)

/-- A key absent from an object yields no value. -/
theorem objGet_eq_none_of_not_hasKey (kvs : List (List Char × JVal))
    (k : List Char) (h : hasKey kvs k = false) : objGet kvs k = none := by
  unfold hasKey at h
  unfold objGet
  have hall : ∀ x ∈ kvs, ¬((fun (p : List Char × JVal) => p.1 == k) x = true) := by
    intro x hx hb
    have : kvs.any (fun p => p.1 == k) = true := List.any_eq_true.mpr ⟨x, hx, hb⟩
    rw [this] at h
    cases h
  rw [List.find?_eq_none.mpr hall]
  rfl

/-- Claim C10 counterexample: `\x7b"target_text":"a","comment":1\x7d` parses as a
JSON object containing both required keys, yet `try_extract_single_comment`
returns `none`, because the integer value of `comment` fails the pydantic
`str`-field validation (the exception is caught and turned into `None`).
This refutes the claimed "if" direction. -/
theorem thesis_C10_cex :
    try_extract_single_comment "\x7b\"target_text\":\"a\",\"comment\":1\x7d" = none ∧
    (∃ kvs, json_loads "\x7b\"target_text\":\"a\",\"comment\":1\x7d" = some (.jobj kvs) ∧
      hasKey kvs "target_text".toList = true ∧ hasKey kvs "comment".toList = true) := by
  refine ⟨by decide,
    ⟨[("target_text".toList, .jstr "a".toList), ("comment".toList, .jint 1)],
      ?_, by decide, by decide⟩⟩
  rfl

/-- Claim C10 (amended): `try_extract_single_comment` never raises (it is a
total function); it returns a record only if its input parses as a JSON
object containing both `target_text` and `comment`, and then every present
field passed schema validation and every absent field took its default
(`paragraph_index = 0`, `severity = "suggestion"`); on a parse failure, a
non-object result, or a missing required key it returns `none`. -/
theorem thesis_C10 (s : String) :
    (∀ r, try_extract_single_comment s = some r →
      ∃ kvs, json_loads s = some (.jobj kvs) ∧
        hasKey kvs "target_text".toList = true ∧
        hasKey kvs "comment".toList = true ∧
        (hasKey kvs "paragraph_index".toList = false → r.paragraph_index = 0) ∧
        (hasKey kvs "severity".toList = false → r.severity = "suggestion") ∧
        (∀ v, objGet kvs "paragraph_index".toList = some v →
          pydIntField v = some r.paragraph_index) ∧
        (∀ v, objGet kvs "target_text".toList = some v →
          pydStrField v = some r.target_text) ∧
        (∀ v, objGet kvs "comment".toList = some v →
          pydStrField v = some r.comment) ∧
        (∀ v, objGet kvs "severity".toList = some v →
          pydStrField v = some r.severity)) ∧
    (∀ kvs, json_loads s = some (.jobj kvs) →
      ¬(hasKey kvs "target_text".toList = true ∧ hasKey kvs "comment".toList = true) →
      try_extract_single_comment s = none) ∧
    (json_loads s = none → try_extract_single_comment s = none) ∧
    (∀ v, json_loads s = some v → (∀ kvs, v ≠ .jobj kvs) →
      try_extract_single_comment s = none) := by
  refine ⟨?_, ?_, fun hj => tryExtract_eq_of_none s hj, fun v hj hv => tryExtract_eq_of_nonobj s v hj hv⟩
  · intro r hr
    match hj : json_loads s with
    | none => rw [tryExtract_eq_of_none s hj] at hr; cases hr
    | some .jnull | some (.jbool _) | some (.jint _) | some (.jdec _ _)
    | some .jnan | some (.jinf _) | some (.jstr _) | some (.jarr _) =>
      rw [tryExtract_eq_of_nonobj s _ hj (by intro kvs h; cases h)] at hr; cases hr
    | some (.jobj kvs) =>
      rw [tryExtract_eq_of_obj s kvs hj] at hr
      by_cases hk : (hasKey kvs "target_text".toList && hasKey kvs "comment".toList) = true
      · rw [Bool.and_eq_true] at hk
        obtain ⟨hk1, hk2⟩ := hk
        have hk : (hasKey kvs "target_text".toList && hasKey kvs "comment".toList) = true := by
          rw [Bool.and_eq_true]; exact ⟨hk1, hk2⟩
        rw [if_pos hk] at hr
        refine ⟨kvs, rfl, hk1, hk2, ?_⟩
        unfold mkReviewComment at hr
        match hpi : pydIntField ((objGet kvs "paragraph_index".toList).getD (.jint 0)),
              htt : pydStrField ((objGet kvs "target_text".toList).getD (.jstr [])),
              hcm : pydStrField ((objGet kvs "comment".toList).getD (.jstr [])),
              hsv : pydStrField ((objGet kvs "severity".toList).getD (.jstr "suggestion".toList)) with
        | none, _, _, _ => rw [hpi] at hr; cases hr
        | some a, none, _, _ => rw [hpi, htt] at hr; cases hr
        | some a, some b, none, _ => rw [hpi, htt, hcm] at hr; cases hr
        | some a, some b, some c, none => rw [hpi, htt, hcm, hsv] at hr; cases hr
        | some a, some b, some c, some d =>
          rw [hpi, htt, hcm, hsv] at hr
          simp only [Option.some.injEq] at hr
          subst hr
          refine ⟨?_, ?_, ?_, ?_, ?_, ?_⟩
          · intro habs
            rw [objGet_eq_none_of_not_hasKey kvs _ habs] at hpi
            simp only [Option.getD_none] at hpi
            have : (0 : Int) = a := by simpa [pydIntField] using hpi
            exact this.symm
          · intro habs
            rw [objGet_eq_none_of_not_hasKey kvs _ habs] at hsv
            simp only [Option.getD_none] at hsv
            have : String.mk "suggestion".toList = d := by simpa [pydStrField] using hsv
            exact this.symm
          · intro v hv; rw [hv] at hpi; simpa using hpi
          · intro v hv; rw [hv] at htt; simpa using htt
          · intro v hv; rw [hv] at hcm; simpa using hcm
          · intro v hv; rw [hv] at hsv; simpa using hsv
      · rw [if_neg hk] at hr; cases hr
  · intro kvs hj hk
    rw [tryExtract_eq_of_obj s kvs hj]
    rw [if_neg ?_]
    intro hb
    rw [Bool.and_eq_true] at hb
    exact hk hb

/-- Claim C10 witness: the amended theorem applied at the concrete input
`\x7b"target_text":"x"\x7d` (an object missing the `comment` key), discharging its
hypotheses there. -/
theorem thesis_C10_witness :
    try_extract_single_comment "\x7b\"target_text\":\"x\"\x7d" = none :=
  (thesis_C10 "\x7b\"target_text\":\"x\"\x7d").2.1
    [("target_text".toList, JVal.jstr "x".toList)] (by rfl) (by decide)

/-- Folding string concatenation from an arbitrary seed. -/
theorem strFold_append (l : List String) (a : String) :
    l.foldl (· ++ ·) a = a ++ l.foldl (· ++ ·) "" := by
  induction l generalizing a with
  | nil => simp [String.append_empty]
  | cons f rest ih =>
    simp only [List.foldl_cons]
    rw [ih (a ++ f), ih ("" ++ f), String.empty_append, String.append_assoc]

/-- Feeding the extractor a fragment list is the same as feeding the
concatenation character by character: the per-fragment scan resumes
exactly where the previous fragment stopped. -/
theorem streamBatchState_concat (frags : List String) (st : ScanState) :
    frags.foldl (fun st f => f.toList.foldl charStep st) st =
    (frags.foldl (· ++ ·) "").toList.foldl charStep st := by
  induction frags generalizing st with
  | nil => rfl
  | cons f rest ih =>
    simp only [List.foldl_cons]
    rw [ih, strFold_append rest ("" ++ f), String.empty_append]
    have hdist : (f ++ rest.foldl (· ++ ·) "").toList =
        f.toList ++ (rest.foldl (· ++ ·) "").toList := by
      simp [String.toList, String.data_append]
    rw [hdist, List.foldl_append]

/-- The concrete stream of claim C3. -/
def c3target : String :=
  "\x7b\"comments\": [\x7b\"target_text\":\"a\",\"comment\":\"b\",\"severity\":\"error\"\x7d]\x7d"

set_option maxRecDepth 4000 in
/-- Claim C3: however the target text is split into fragments, the
extractor emits exactly one Record event, with `target_text = "a"`,
`comment = "b"`, `severity = "error"` (and `paragraph_index` defaulted
to 0). -/
theorem thesis_C3 (frags : List String)
    (h : frags.foldl (· ++ ·) "" = c3target) :
    streamBatchRecords frags = some [⟨0, "a", "b", "error"⟩] := by
  unfold streamBatchRecords streamBatchState
  rw [streamBatchState_concat, h]
  decide

/-- Claim C3 witness: the theorem applied at the spec's three-fragment
split of the target text. -/
theorem thesis_C3_witness :
    streamBatchRecords
      ["\x7b\"comments\": [", "\x7b\"target_text\":\"a\"",
       ",\"comment\":\"b\",\"severity\":\"error\"\x7d]\x7d"] =
      some [⟨0, "a", "b", "error"⟩] :=
  thesis_C3 _ (by rfl)

/-- Forwarded section-stream events are never done or error events. -/
theorem liftEv_not_done_error (b : BatchEvent) :
    isDoneEv (liftEv b) = false ∧ isErrorEv (liftEv b) = false := by
  cases b <;> simp [liftEv, isDoneEv, isErrorEv]

/-- No done event occurs inside a section block. -/
theorem sectionBlock_no_done (total ix : Nat) (sec : Section)
    (oc : StreamOutcome) : ∀ e ∈ sectionBlock total ix sec oc, isDoneEv e = false := by
  intro e he
  cases oc with
  | ok evs =>
    simp only [sectionBlock, List.mem_cons, List.mem_map] at he
    rcases he with h | ⟨b, _, rfl⟩
    · subst h; rfl
    · exact (liftEv_not_done_error b).1
  | fail pre m =>
    simp only [sectionBlock, List.mem_cons, List.mem_append, List.mem_map,
      List.mem_singleton, List.mem_nil_iff, or_false] at he
    rcases he with h | ⟨b, _, rfl⟩ | h
    · subst h; rfl
    · exact (liftEv_not_done_error b).1
    · subst h; rfl

/-- Error events inside a section block: exactly one on failure, none on a
clean drain. -/
theorem sectionBlock_errors (total ix : Nat) (sec : Section)
    (oc : StreamOutcome) :
    (sectionBlock total ix sec oc).countP isErrorEv =
      if isFailOutcome oc then 1 else 0 := by
  cases oc with
  | ok evs =>
    simp only [sectionBlock, isFailOutcome, if_false]
    rw [List.countP_cons]
    have h0 : (evs.map liftEv).countP isErrorEv = 0 := by
      rw [List.countP_eq_zero]
      intro e he
      rcases List.mem_map.mp he with ⟨b, _, rfl⟩
      simp [(liftEv_not_done_error b).2]
    rw [h0]
    rfl
  | fail pre m =>
    simp only [sectionBlock, isFailOutcome, if_true]
    rw [List.countP_cons, List.countP_append, List.countP_cons]
    have h0 : (pre.map liftEv).countP isErrorEv = 0 := by
      rw [List.countP_eq_zero]
      intro e he
      rcases List.mem_map.mp he with ⟨b, _, rfl⟩
      simp [(liftEv_not_done_error b).2]
    rw [h0]
    rfl

/-- Error count over the per-section blocks equals the number of failed
oracle outcomes. -/
theorem blocks_errors (oracle : Nat → StreamOutcome) (total : Nat) :
    ∀ l : List (Nat × Section),
      (l.flatMap (fun p => sectionBlock total p.1 p.2 (oracle p.1))).countP isErrorEv =
      l.countP (fun p => isFailOutcome (oracle p.1)) := by
  intro l
  induction l with
  | nil => rfl
  | cons p rest ih =>
    rw [List.flatMap_cons, List.countP_append, ih, List.countP_cons,
      sectionBlock_errors]
    by_cases hf : isFailOutcome (oracle p.1) <;> simp [hf, Nat.add_comm]

/-- Claim C2: for every input and every per-section outcome, the
orchestrator's event sequence ends with exactly one terminal done event;
the number of error events equals the number of failed sections; each
failed section contributes an error event carrying its name and the
exception message; and every eligible section — in particular every
section after a failed one — still gets its progress event, i.e. iteration
proceeds to the next section. -/
theorem thesis_C2 (ps : List Para) (oracle : Nat → StreamOutcome) :
    (review_paragraphs_stream ps oracle).getLast? = some SSEEvent.edone ∧
    (review_paragraphs_stream ps oracle).countP isDoneEv = 1 ∧
    (review_paragraphs_stream ps oracle).countP isErrorEv =
      (List.range (eligibleSections ps).length).countP
        (fun ix => isFailOutcome (oracle ix)) ∧
    (∀ p ∈ (eligibleSections ps).enum,
      SSEEvent.progress (p.1 + 1) (eligibleSections ps).length
        (progressMsg (p.1 + 1) (eligibleSections ps).length p.2.name) ∈
        review_paragraphs_stream ps oracle) ∧
    (∀ p ∈ (eligibleSections ps).enum, ∀ pre m, oracle p.1 = .fail pre m →
      SSEEvent.eerror (sectionErrorMsg p.2.name m) ∈
        review_paragraphs_stream ps oracle) := by
  unfold review_paragraphs_stream
  set secs := eligibleSections ps with hsecs
  set total := secs.length with htotal
  set blocks := secs.enum.flatMap (fun p => sectionBlock total p.1 p.2 (oracle p.1))
    with hblocks
  set hd := SSEEvent.progress 0 total (startMsg (detect_sections ps).length total)
    with hhd
  refine ⟨?_, ?_, ?_, ?_, ?_⟩
  · show (hd :: (blocks ++ [SSEEvent.edone])).getLast? = some SSEEvent.edone
    rw [show hd :: (blocks ++ [SSEEvent.edone]) =
      ((hd :: blocks) ++ [SSEEvent.edone]) from rfl]
    exact List.getLast?_concat _
  · show (hd :: (blocks ++ [SSEEvent.edone])).countP isDoneEv = 1
    rw [List.countP_cons, List.countP_append]
    have h0 : blocks.countP isDoneEv = 0 := by
      rw [List.countP_eq_zero]
      intro e he
      rcases List.mem_flatMap.mp he with ⟨p, _, hin⟩
      simp [sectionBlock_no_done total p.1 p.2 (oracle p.1) e hin]
    rw [h0]
    rfl
  · show (hd :: (blocks ++ [SSEEvent.edone])).countP isErrorEv = _
    rw [List.countP_cons, List.countP_append, hblocks,
      blocks_errors oracle total secs.enum]
    have : secs.enum.countP (fun p => isFailOutcome (oracle p.1)) =
        (List.range total).countP (fun ix => isFailOutcome (oracle ix)) := by
      have h1 : secs.enum.map Prod.fst = List.range secs.length :=
        List.enum_map_fst secs
      rw [htotal, ← h1, List.countP_map]
      rfl
    rw [this]
    rfl
  · intro p hp
    refine List.mem_cons_of_mem _ (List.mem_append_left _ ?_)
    refine List.mem_flatMap.mpr ⟨p, hp, ?_⟩
    exact List.mem_cons_self _ _
  · intro p hp pre m hfail
    refine List.mem_cons_of_mem _ (List.mem_append_left _ ?_)
    refine List.mem_flatMap.mpr ⟨p, hp, ?_⟩
    rw [hfail]
    unfold sectionBlock
    refine List.mem_cons_of_mem _ (List.mem_append_right _ ?_)
    exact List.mem_singleton.mpr rfl

/-- Concrete paragraph list for claim C2's witness: three detectable
chapter-like sections, none skippable. -/
def c2ps : List Para :=
  [⟨0, "绪论"⟩, ⟨1, "aaa"⟩, ⟨2, "bbb"⟩, ⟨3, "ccc"⟩,
   ⟨4, "结论"⟩, ⟨5, "ddd"⟩, ⟨6, "eee"⟩, ⟨7, "fff"⟩,
   ⟨8, "参考文献"⟩, ⟨9, "ggg"⟩, ⟨10, "hhh"⟩, ⟨11, "iii"⟩]

/-- Concrete oracle for claim C2's witness: the second section's provider
call fails, the others drain cleanly. -/
def c2oracle : Nat → StreamOutcome := fun ix =>
  if ix = 1 then .fail [] "boom"
  else .ok [.bcomment ⟨0, "t", "c", "error"⟩]

/-- Claim C2 witness: the theorem applied at a concrete three-section
input whose second section fails — the sequence still ends in the done
event, the failed section's error event names it, and the third section
still receives its progress event. -/
theorem thesis_C2_witness :
    (review_paragraphs_stream c2ps c2oracle).getLast? = some SSEEvent.edone ∧
    SSEEvent.eerror (sectionErrorMsg "结论" "boom") ∈
      review_paragraphs_stream c2ps c2oracle ∧
    SSEEvent.progress 3 (eligibleSections c2ps).length
      (progressMsg 3 (eligibleSections c2ps).length "参考文献") ∈
      review_paragraphs_stream c2ps c2oracle := by
  refine ⟨(thesis_C2 c2ps c2oracle).1, ?_, ?_⟩
  · have h := (thesis_C2 c2ps c2oracle).2.2.2.2
      ((eligibleSections c2ps).enum.getD 1 default) (by decide) [] "boom" (by decide)
    have hn : ((eligibleSections c2ps).enum.getD 1 default).2.name = "结论" := by
      decide
    rw [hn] at h
    exact h
  · have h := (thesis_C2 c2ps c2oracle).2.2.2.1
      ((eligibleSections c2ps).enum.getD 2 default) (by decide)
    have hf : ((eligibleSections c2ps).enum.getD 2 default).1 = 2 := by decide
    have hn : ((eligibleSections c2ps).enum.getD 2 default).2.name = "参考文献" := by
      decide
    rw [hf, hn] at h
    exact h

/-- Claim C6: a Section of kind cover or toc is never among the sections
the per-section iteration (and hence the prompt assembler and provider)
receives; the eligible list is exactly the other sections, in order. -/
theorem thesis_C6 (ps : List Para) :
    (∀ sec ∈ eligibleSections ps,
      sec.section_type ≠ "cover" ∧ sec.section_type ≠ "toc") ∧
    (∀ sec ∈ detect_sections ps, sec.section_type ≠ "cover" →
      sec.section_type ≠ "toc" → sec ∈ eligibleSections ps) ∧
    (eligibleSections ps).Sublist (detect_sections ps) := by
  refine ⟨?_, ?_, List.filter_sublist _⟩
  · intro sec hsec
    rw [eligibleSections, List.mem_filter] at hsec
    obtain ⟨-, hp⟩ := hsec
    constructor
    · intro h; rw [h] at hp; simp at hp
    · intro h; rw [h] at hp; simp at hp
  · intro sec hs h1 h2
    rw [eligibleSections, List.mem_filter]
    refine ⟨hs, ?_⟩
    simp only [Bool.not_eq_true', Bool.or_eq_false_iff, beq_eq_false_iff_ne,
      ne_eq]
    exact ⟨h1, h2⟩

/-- Concrete paragraph list for claim C6's witness: two cover paragraphs
followed by a chapter. -/
def c6ps : List Para :=
  [⟨0, "论文题目"⟩, ⟨1, "作者"⟩, ⟨2, "绪论"⟩, ⟨3, "aaa"⟩, ⟨4, "bbb"⟩, ⟨5, "ccc"⟩]

/-- Claim C6 witness: the theorem applied at a concrete input that has a
cover section; the surviving eligible section is not cover/toc. -/
theorem thesis_C6_witness :
    ((eligibleSections c6ps).getD 0 default).section_type ≠ "cover" ∧
    ((eligibleSections c6ps).getD 0 default).section_type ≠ "toc" :=
  (thesis_C6 c6ps).1 _ (by decide)

/-- A sandwich match forces the first character. -/
theorem sandwichEnd_head (a b : Char) (l : List Char)
    (h : sandwichEnd a b l = true) : l.head? = some a := by
  cases l with
  | nil => simp [sandwichEnd] at h
  | cons c rest =>
    simp only [sandwichEnd, Bool.and_eq_true, decide_eq_true_eq] at h
    simp [h.1]

/-- A sandwich prefix match forces the first character. -/
theorem sandwichPre_head (a b : Char) (l : List Char)
    (h : sandwichPre a b l = true) : l.head? = some a := by
  cases l with
  | nil => simp [sandwichPre] at h
  | cons c rest =>
    simp only [sandwichPre, Bool.and_eq_true, decide_eq_true_eq] at h
    simp [h.1]

/-- A 第...章 match forces 第 as first character. -/
theorem matchDiZhang_head (l : List Char) (h : matchDiZhang l = true) :
    l.head? = some '第' := by
  cases l with
  | nil => simp [matchDiZhang] at h
  | cons c rest =>
    simp only [matchDiZhang, Bool.and_eq_true, decide_eq_true_eq] at h
    simp [h.1]

/-- An enumerated-marker match forces a Chinese numeral first character. -/
theorem matchEnumDun_head (l : List Char) (h : matchEnumDun l = true) :
    ∃ c, l.head? = some c ∧ cnNum c = true := by
  cases l with
  | nil => simp [matchEnumDun] at h
  | cons c rest =>
    simp only [matchEnumDun, Bool.and_eq_true] at h
    obtain ⟨hne, -⟩ := h
    refine ⟨c, rfl, ?_⟩
    by_cases hc : cnNum c
    · exact hc
    · rw [List.takeWhile_cons, if_neg (by simp [hc])] at hne
      simp at hne

/-- A top-level numeric header match forces a digit first character. -/
theorem matchNumHead_head (l : List Char) (h : matchNumHead l = true) :
    ∃ c, l.head? = some c ∧ c.isDigit = true := by
  cases l with
  | nil => simp [matchNumHead] at h
  | cons c rest =>
    simp only [matchNumHead, Bool.and_eq_true] at h
    obtain ⟨hne, -⟩ := h
    refine ⟨c, rfl, ?_⟩
    by_cases hc : c.isDigit
    · exact hc
    · rw [List.takeWhile_cons, if_neg (by simp [hc])] at hne
      simp at hne

/-- A subtitled-绪论 match forces 绪 as first character. -/
theorem matchXulunSub_head (l : List Char) (h : matchXulunSub l = true) :
    l.head? = some '绪' := by
  cases l with
  | nil => simp [matchXulunSub] at h
  | cons c rest =>
    simp only [matchXulunSub, Bool.and_eq_true, decide_eq_true_eq] at h
    simp [h.1]

/-- The four rules below the chapter block in the priority table all fail
on a text whose first character is none of 参, 致, 附, 目. -/
theorem tail_false_of_head (text : List Char) (c : Char)
    (hc : text.head? = some c) (h1 : c ≠ '参') (h2 : c ≠ '致')
    (h3 : c ≠ '附') (h4 : c ≠ '目') :
    matchCankao text = false ∧ sandwichEnd '致' '谢' text = false ∧
    sandwichPre '附' '录' text = false ∧ sandwichEnd '目' '录' text = false := by
  cases text with
  | nil => cases hc
  | cons d rest =>
    simp only [List.head?_cons, Option.some.injEq] at hc
    subst hc
    refine ⟨?_, ?_, ?_, ?_⟩
    · show ((d :: rest) == "参考文献".toList) = false
      rw [beq_eq_false_iff_ne]
      intro heq
      have hd : d = '参' := by
        have h' := congrArg List.head? heq
        simpa using h'
      exact h1 hd
    · simp [sandwichEnd, h2]
    · simp [sandwichPre, h3]
    · simp [sandwichEnd, h4]

/-- A Chinese numeral is none of the tail-rule first characters. -/
theorem cnNum_ne_tail (c : Char) (h : cnNum c = true) :
    c ≠ '参' ∧ c ≠ '致' ∧ c ≠ '附' ∧ c ≠ '目' := by
  refine ⟨?_, ?_, ?_, ?_⟩ <;> intro he <;> rw [he] at h <;>
    exact absurd h (by decide)

/-- An ASCII digit is none of the tail-rule first characters. -/
theorem isDigit_ne_tail (c : Char) (h : c.isDigit = true) :
    c ≠ '参' ∧ c ≠ '致' ∧ c ≠ '附' ∧ c ≠ '目' := by
  refine ⟨?_, ?_, ?_, ?_⟩ <;> intro he <;> rw [he] at h <;>
    exact absurd h (by decide)

/-- Claim C5: when a paragraph's cleaned text matches a chapter-classified
rule but fails the heading test, the match is rejected, and the scan
produces exactly what continuing through the remaining rules of the
priority table would produce (the source's early exit is observationally
equivalent to continuing: on a chapter-matching text every later
non-chapter rule fails, because the possible first characters are
disjoint). -/
theorem thesis_C5 (text : List Char) :
    scanRules _SECTION_PATTERNS text = scanRulesCont _SECTION_PATTERNS text := by
  by_cases h0 : sandwichEnd '摘' '要' text = true
  · simp [scanRules, scanRulesCont, _SECTION_PATTERNS, h0]
  rw [Bool.not_eq_true] at h0
  by_cases h1 : matchAbstractEn text = true
  · simp [scanRules, scanRulesCont, _SECTION_PATTERNS, h0, h1]
  rw [Bool.not_eq_true] at h1
  by_cases hh : _is_heading_paragraph text = true
  · simp [scanRules, scanRulesCont, _SECTION_PATTERNS, h0, h1, hh]
  rw [Bool.not_eq_true] at hh
  by_cases h2 : matchDiZhang text = true
  · obtain ⟨t1, t2, t3, t4⟩ := tail_false_of_head text '第'
      (matchDiZhang_head text h2) (by decide) (by decide) (by decide) (by decide)
    simp [scanRules, scanRulesCont, _SECTION_PATTERNS, h0, h1, hh, h2,
      t1, t2, t3, t4]
  rw [Bool.not_eq_true] at h2
  by_cases h3 : matchEnumDun text = true
  · obtain ⟨c, hc, hcn⟩ := matchEnumDun_head text h3
    obtain ⟨n1, n2, n3, n4⟩ := cnNum_ne_tail c hcn
    obtain ⟨t1, t2, t3, t4⟩ := tail_false_of_head text c hc n1 n2 n3 n4
    simp [scanRules, scanRulesCont, _SECTION_PATTERNS, h0, h1, hh, h2, h3,
      t1, t2, t3, t4]
  rw [Bool.not_eq_true] at h3
  by_cases h4 : matchNumHead text = true
  · obtain ⟨c, hc, hcd⟩ := matchNumHead_head text h4
    obtain ⟨n1, n2, n3, n4⟩ := isDigit_ne_tail c hcd
    obtain ⟨t1, t2, t3, t4⟩ := tail_false_of_head text c hc n1 n2 n3 n4
    simp [scanRules, scanRulesCont, _SECTION_PATTERNS, h0, h1, hh, h2, h3, h4,
      t1, t2, t3, t4]
  rw [Bool.not_eq_true] at h4
  by_cases h5 : sandwichEnd '绪' '论' text = true
  · obtain ⟨t1, t2, t3, t4⟩ := tail_false_of_head text '绪'
      (sandwichEnd_head _ _ _ h5) (by decide) (by decide) (by decide) (by decide)
    simp [scanRules, scanRulesCont, _SECTION_PATTERNS, h0, h1, hh, h2, h3, h4,
      h5, t1, t2, t3, t4]
  rw [Bool.not_eq_true] at h5
  by_cases h6 : sandwichEnd '引' '言' text = true
  · obtain ⟨t1, t2, t3, t4⟩ := tail_false_of_head text '引'
      (sandwichEnd_head _ _ _ h6) (by decide) (by decide) (by decide) (by decide)
    simp [scanRules, scanRulesCont, _SECTION_PATTERNS, h0, h1, hh, h2, h3, h4,
      h5, h6, t1, t2, t3, t4]
  rw [Bool.not_eq_true] at h6
  by_cases h7 : sandwichEnd '导' '论' text = true
  · obtain ⟨t1, t2, t3, t4⟩ := tail_false_of_head text '导'
      (sandwichEnd_head _ _ _ h7) (by decide) (by decide) (by decide) (by decide)
    simp [scanRules, scanRulesCont, _SECTION_PATTERNS, h0, h1, hh, h2, h3, h4,
      h5, h6, h7, t1, t2, t3, t4]
  rw [Bool.not_eq_true] at h7
  by_cases h8 : sandwichEnd '结' '论' text = true
  · obtain ⟨t1, t2, t3, t4⟩ := tail_false_of_head text '结'
      (sandwichEnd_head _ _ _ h8) (by decide) (by decide) (by decide) (by decide)
    simp [scanRules, scanRulesCont, _SECTION_PATTERNS, h0, h1, hh, h2, h3, h4,
      h5, h6, h7, h8, t1, t2, t3, t4]
  rw [Bool.not_eq_true] at h8
  by_cases h9 : sandwichEnd '总' '结' text = true
  · obtain ⟨t1, t2, t3, t4⟩ := tail_false_of_head text '总'
      (sandwichEnd_head _ _ _ h9) (by decide) (by decide) (by decide) (by decide)
    simp [scanRules, scanRulesCont, _SECTION_PATTERNS, h0, h1, hh, h2, h3, h4,
      h5, h6, h7, h8, h9, t1, t2, t3, t4]
  rw [Bool.not_eq_true] at h9
  by_cases h10 : matchXulunSub text = true
  · obtain ⟨t1, t2, t3, t4⟩ := tail_false_of_head text '绪'
      (matchXulunSub_head text h10) (by decide) (by decide) (by decide) (by decide)
    simp [scanRules, scanRulesCont, _SECTION_PATTERNS, h0, h1, hh, h2, h3, h4,
      h5, h6, h7, h8, h9, h10, t1, t2, t3, t4]
  rw [Bool.not_eq_true] at h10
  simp [scanRules, scanRulesCont, _SECTION_PATTERNS, h0, h1, hh, h2, h3, h4,
    h5, h6, h7, h8, h9, h10]

/-- Every boundary position produced by the scan lies in the scanned
range. -/
theorem scanBoundaries_lb :
    ∀ (l : List Para) (pos : Nat) (inToc : Bool),
      ∀ b ∈ scanBoundaries l pos inToc, pos ≤ b.1 ∧ b.1 < pos + l.length := by
  intro l
  induction l with
  | nil => intro pos inToc b hb; simp [scanBoundaries] at hb
  | cons p rest ih =>
    intro pos inToc b hb
    rw [scanBoundaries] at hb
    rcases hpp : perPara inToc p.text with ⟨ob, inToc'⟩
    rw [hpp] at hb
    cases ob with
    | none =>
      have := ih (pos + 1) inToc' b hb
      constructor <;> [omega; (simp only [List.length_cons]; omega)]
    | some nt =>
      rcases nt with ⟨n, t⟩
      rcases List.mem_cons.mp hb with rfl | hbt
      · simp
      · have := ih (pos + 1) inToc' b hbt
        constructor <;> [omega; (simp only [List.length_cons]; omega)]

/-- Boundary positions are strictly increasing. -/
theorem scanBoundaries_chain :
    ∀ (l : List Para) (pos : Nat) (inToc : Bool),
      (scanBoundaries l pos inToc).Chain' (fun a b => a.1 < b.1) := by
  intro l
  induction l with
  | nil => intro pos inToc; simp [scanBoundaries]
  | cons p rest ih =>
    intro pos inToc
    rw [scanBoundaries]
    rcases hpp : perPara inToc p.text with ⟨ob, inToc'⟩
    cases ob with
    | none => exact ih (pos + 1) inToc'
    | some nt =>
      rcases nt with ⟨n, t⟩
      rw [List.chain'_cons']
      refine ⟨?_, ih (pos + 1) inToc'⟩
      intro y hy
      have hmem : y ∈ scanBoundaries rest (pos + 1) inToc' :=
        List.mem_of_mem_head? hy
      have := scanBoundaries_lb rest (pos + 1) inToc' y hmem
      omega

/-- A built section's paragraphs are exactly the slice it was built
from. -/
theorem mkSection_paras (n ty : String) (l : List Para) :
    (mkSection n ty l).flatMap Section.paragraphs = l := by
  cases l <;> simp [mkSection]

/-- The boundary-delimited sections together hold exactly the paragraphs
from the first boundary position on. -/
theorem buildFrom_paras (ps : List Para) :
    ∀ (rest : List (Nat × String × String)) (pos : Nat) (n t : String),
      ((pos, n, t) :: rest).Chain' (fun a b => a.1 < b.1) →
      (buildFrom ps ((pos, n, t) :: rest)).flatMap Section.paragraphs =
        ps.drop pos := by
  intro rest
  induction rest with
  | nil =>
    intro pos n t _
    simp [buildFrom, mkSection_paras]
  | cons b2 rest' ih =>
    intro pos n t hch
    rcases b2 with ⟨p2, n2, t2⟩
    rw [buildFrom, List.flatMap_append, mkSection_paras,
      ih p2 n2 t2 (List.chain'_cons.mp hch).2]
    have hlt : pos < p2 := (List.chain'_cons.mp hch).1
    have hdd : ps.drop p2 = (ps.drop pos).drop (p2 - pos) := by
      rw [List.drop_drop]
      congr 1
      omega
    rw [hdd, List.take_append_drop]

/-- The cover section holds exactly the paragraphs before the first
boundary. -/
theorem coverSection_paras (ps : List Para) (pos : Nat) :
    (coverSection ps pos).flatMap Section.paragraphs = ps.take pos := by
  unfold coverSection
  by_cases h : pos > 0
  · rw [if_pos h, mkSection_paras]
  · rw [if_neg h]
    have hz : pos = 0 := by omega
    simp [hz]

/-- Cover plus boundary sections partition the whole paragraph list. -/
theorem builtSections_paras (ps : List Para)
    (bs : List (Nat × String × String))
    (hch : bs.Chain' (fun a b => a.1 < b.1)) (hne : bs ≠ []) :
    (builtSections ps bs).flatMap Section.paragraphs = ps := by
  cases bs with
  | nil => exact absurd rfl hne
  | cons b rest =>
    rcases b with ⟨pos, n, t⟩
    rw [builtSections, List.flatMap_append, coverSection_paras,
      buildFrom_paras ps rest pos n t hch, List.take_append_drop]

/-- The merge fold preserves the concatenation of paragraph lists. -/
theorem mergeGo_paras :
    ∀ (l racc : List Section),
      (mergeGo racc l).flatMap Section.paragraphs =
        racc.reverse.flatMap Section.paragraphs ++
          l.flatMap Section.paragraphs := by
  intro l
  induction l with
  | nil => intro racc; simp [mergeGo]
  | cons sec rest ih =>
    intro racc
    cases racc with
    | nil =>
      rw [mergeGo]
      rw [ih [sec]]
      simp
    | cons prev racc' =>
      rw [mergeGo]
      by_cases hc : (decide (sec.paragraphs.length < 3) &&
          sec.section_type == prev.section_type) = true
      · rw [if_pos hc, ih]
        simp [mergeAbsorb, List.flatMap_append, List.append_assoc]
      · rw [if_neg hc, ih]
        simp [List.flatMap_append, List.append_assoc]

/-- `_merge_small_sections` preserves the concatenation of paragraph
lists. -/
theorem merge_paras (secs : List Section) :
    (_merge_small_sections secs).flatMap Section.paragraphs =
      secs.flatMap Section.paragraphs := by
  unfold _merge_small_sections
  by_cases h : secs.length ≤ 1
  · rw [if_pos h]
  · rw [if_neg h, mergeGo_paras]
    simp

/-- Fallback chunking partitions the whole paragraph list. -/
theorem fallbackAux_paras :
    ∀ (n : Nat) (l : List Para) (num : Nat), l.length ≤ n →
      (fallbackAux n l num).flatMap Section.paragraphs = l := by
  intro n
  induction n with
  | zero =>
    intro l num hl
    have : l = [] := List.length_eq_zero.mp (by omega)
    subst this
    simp [fallbackAux]
  | succ m ih =>
    intro l num hl
    cases l with
    | nil => simp [fallbackAux]
    | cons p rest =>
      rw [fallbackAux, List.flatMap_append, mkSection_paras,
        ih ((p :: rest).drop 30) (num + 1) (by
          simp only [List.length_drop, List.length_cons]
          simp only [List.length_cons] at hl
          omega)]
      exact List.take_append_drop 30 (p :: rest)

/-- Filtering an enumeration and projecting back is a sublist. -/
theorem enumFrom_filter_snd_sublist {α : Type} (p : Nat × α → Bool) :
    ∀ (l : List α) (n : Nat),
      (((List.enumFrom n l).filter p).map Prod.snd).Sublist l := by
  intro l
  induction l with
  | nil => intro n; simp
  | cons a t ih =>
    intro n
    rw [List.enumFrom_cons, List.filter_cons]
    by_cases hp : p (n, a) = true
    · rw [if_pos hp, List.map_cons]
      exact List.Sublist.cons₂ a (ih (n + 1))
    · rw [if_neg hp]
      exact List.Sublist.cons a (ih (n + 1))

/-- Deduplication only ever discards whole sections, in place. -/
theorem dedup_sublist (secs : List Section) :
    (_deduplicate_sections secs).Sublist secs := by
  unfold _deduplicate_sections
  by_cases h : secs.length ≤ 1
  · rw [if_pos h]
  · rw [if_neg h]
    rw [List.enum]
    exact enumFrom_filter_snd_sublist _ secs 0

/-- `flatMap` is monotone with respect to sublists. -/
theorem flatMap_sublist_of_sublist {α β : Type} (f : α → List β)
    {l1 l2 : List α} (h : l1.Sublist l2) :
    (l1.flatMap f).Sublist (l2.flatMap f) := by
  induction h with
  | slnil => simp
  | cons a h ih =>
    rw [List.flatMap_cons]
    exact ih.trans (List.sublist_append_right _ _)
  | cons₂ a h ih =>
    rw [List.flatMap_cons, List.flatMap_cons]
    exact List.Sublist.append_left ih _

/-- The sections built by the segmenter just before deduplication hold
exactly the input paragraphs, in order. -/
theorem sectionsBeforeDedup_paras (ps : List Para) :
    (sectionsBeforeDedup ps).flatMap Section.paragraphs = ps := by
  unfold sectionsBeforeDedup
  cases hbs : boundariesOf ps with
  | nil => exact fallbackAux_paras ps.length ps 1 le_rfl
  | cons b rest =>
    rw [merge_paras, builtSections_paras ps (b :: rest) ?_ (by simp)]
    rw [← hbs]
    exact scanBoundaries_chain ps 0 false

/-- The final sections relate to the pre-dedup sections: equal lists
except that deduplication may drop whole sections. -/
theorem detect_sections_cases (ps : List Para) :
    detect_sections ps = sectionsBeforeDedup ps ∨
    detect_sections ps = _deduplicate_sections (sectionsBeforeDedup ps) := by
  unfold detect_sections sectionsBeforeDedup
  by_cases hps : ps.isEmpty
  · left
    rw [if_pos hps]
    have : ps = [] := List.isEmpty_iff.mp hps
    subst this
    simp [boundariesOf, scanBoundaries, _fallback_chunking, fallbackAux]
  · rw [if_neg hps]
    cases hbs : boundariesOf ps with
    | nil => left; rfl
    | cons b rest => right; rfl

/-- Every final section is one of the pre-dedup sections. -/
theorem detect_mem_beforeDedup (ps : List Para) :
    ∀ sec ∈ detect_sections ps, sec ∈ sectionsBeforeDedup ps := by
  intro sec hsec
  rcases detect_sections_cases ps with h | h
  · rw [h] at hsec; exact hsec
  · rw [h] at hsec
    exact (dedup_sublist (sectionsBeforeDedup ps)).subset hsec

/-- The concatenation of the final sections' paragraphs is an
order-preserving, duplication-free selection from the input. -/
theorem detect_flatMap_sublist (ps : List Para) :
    ((detect_sections ps).flatMap Section.paragraphs).Sublist ps := by
  rcases detect_sections_cases ps with h | h <;> rw [h]
  · rw [sectionsBeforeDedup_paras]
  · calc ((_deduplicate_sections (sectionsBeforeDedup ps)).flatMap
          Section.paragraphs).Sublist
          ((sectionsBeforeDedup ps).flatMap Section.paragraphs) :=
        flatMap_sublist_of_sublist _ (dedup_sublist _)
    _ = ps := sectionsBeforeDedup_paras ps

/-- Concrete paragraph list for claim C1's counterexample: two chapters
whose headings normalize identically. -/
def c1ps : List Para :=
  [⟨0, "绪论"⟩, ⟨1, "aaa"⟩, ⟨2, "bbb"⟩, ⟨3, "ccc"⟩,
   ⟨4, "绪论"⟩, ⟨5, "ddd"⟩, ⟨6, "eee"⟩, ⟨7, "fff"⟩]

/-- Claim C1 counterexample: on `c1ps` the deduplication pass discards the
whole second 绪论 section, so the non-empty, non-TOC paragraph `⟨5, "ddd"⟩`
is in no final Section — the final ranges are not a partition of the
non-dropped paragraphs. -/
theorem thesis_C1_cex : ¬ C1Covers c1ps := by
  intro h
  obtain ⟨sec, hsec, hmem⟩ :=
    h ⟨5, "ddd"⟩ (by decide) (by decide) (by decide)
  have hd : detect_sections c1ps =
      [⟨"绪论", "chapter", 0, 3,
        [⟨0, "绪论"⟩, ⟨1, "aaa"⟩, ⟨2, "bbb"⟩, ⟨3, "ccc"⟩]⟩] := by decide
  rw [hd] at hsec
  rw [List.mem_singleton] at hsec
  subst hsec
  exact absurd hmem (by decide)

/-- Claim C1 (amended): `detect_sections` is total, and before the
deduplication pass its sections partition the entire input (cover
handling, boundary slicing, fallback chunking and merging lose nothing —
TOC entries and empty paragraphs stay inside their enclosing section);
deduplication then discards whole duplicate-named sections, so the final
concatenation is an order-preserving, duplication-free sublist of the
input, but the paragraphs of discarded duplicate sections are lost. -/
theorem thesis_C1 (ps : List Para) :
    (sectionsBeforeDedup ps).flatMap Section.paragraphs = ps ∧
    ((detect_sections ps).flatMap Section.paragraphs).Sublist ps :=
  ⟨sectionsBeforeDedup_paras ps, detect_flatMap_sublist ps⟩

/-- Shape of the fallback chunks: each is a chapter-kind section named by
its ordinal, holds at most 30 paragraphs, is non-empty, and every chunk
except the last holds exactly 30. -/
theorem fallbackAux_props :
    ∀ (n : Nat) (l : List Para) (num : Nat), l.length ≤ n →
      (l ≠ [] → fallbackAux n l num ≠ []) ∧
      (∀ k, k < (fallbackAux n l num).length →
        ((fallbackAux n l num).getD k default).section_type = "chapter" ∧
        ((fallbackAux n l num).getD k default).name =
          "第" ++ toString (num + k) ++ "部分" ∧
        ((fallbackAux n l num).getD k default).paragraphs ≠ [] ∧
        ((fallbackAux n l num).getD k default).paragraphs.length ≤ 30 ∧
        (k + 1 < (fallbackAux n l num).length →
          ((fallbackAux n l num).getD k default).paragraphs.length = 30)) := by
  intro n
  induction n with
  | zero =>
    intro l num hl
    have : l = [] := List.length_eq_zero.mp (by omega)
    subst this
    refine ⟨fun h => absurd rfl h, ?_⟩
    intro k hk
    simp [fallbackAux] at hk
  | succ m ih =>
    intro l num hl
    cases l with
    | nil =>
      refine ⟨fun h => absurd rfl h, ?_⟩
      intro k hk
      simp [fallbackAux] at hk
    | cons p rest =>
      have hdl : ((p :: rest).drop 30).length ≤ m := by
        simp only [List.length_drop, List.length_cons]
        simp only [List.length_cons] at hl
        omega
      have ihd := ih ((p :: rest).drop 30) (num + 1) hdl
      have heq : fallbackAux (m + 1) (p :: rest) num =
          ⟨"第" ++ toString num ++ "部分", "chapter", p.index,
            (((p :: rest).take 30).getLast?.getD p).index,
            (p :: rest).take 30⟩ ::
          fallbackAux m ((p :: rest).drop 30) (num + 1) := by rfl
      have htail30 : fallbackAux m ((p :: rest).drop 30) (num + 1) ≠ [] →
          ((p :: rest).take 30).length = 30 := by
        intro hne
        have hdrop : (p :: rest).drop 30 ≠ [] := by
          intro habs
          rw [habs] at hne
          exact hne (by cases m <;> rfl)
        have hlen : 30 < (p :: rest).length := by
          by_contra hcon
          exact hdrop (List.drop_eq_nil_of_le (by omega))
        simp only [List.length_take, List.length_cons]
        simp only [List.length_cons] at hlen
        omega
      constructor
      · intro
        rw [heq]
        exact List.cons_ne_nil _ _
      · intro k hk
        rw [heq] at hk
        match k with
        | 0 =>
          rw [heq]
          refine ⟨rfl, ?_, ?_, ?_, ?_⟩
          · show ("第" ++ toString num ++ "部分" : String) =
              "第" ++ toString (num + 0) ++ "部分"
            rw [Nat.add_zero]
          · show (p :: rest).take 30 ≠ []
            rw [show (p :: rest).take 30 = p :: rest.take 29 from rfl]
            exact List.cons_ne_nil _ _
          · show ((p :: rest).take 30).length ≤ 30
            simp only [List.length_take, List.length_cons]
            omega
          · intro hk1
            show ((p :: rest).take 30).length = 30
            apply htail30
            simp only [List.length_cons] at hk1
            intro habs
            rw [habs] at hk1
            simp at hk1
        | j + 1 =>
          rw [heq]
          simp only [List.length_cons] at hk
          simp only [List.getD_cons_succ]
          have hj := ihd.2 j (by omega)
          refine ⟨hj.1, ?_, hj.2.2.1, hj.2.2.2.1, ?_⟩
          · rw [hj.2.1]
            have harith : num + 1 + j = num + (j + 1) := by omega
            rw [harith]
          · intro hk1
            simp only [List.length_cons] at hk1
            exact hj.2.2.2.2 (by omega)

/-- Claim C7: when the input is non-empty and the boundary scan finds
nothing, `detect_sections` returns the fallback chunking — consecutive
30-paragraph chapter-kind chunks named by ordinal, covering every input
paragraph exactly once in order, only the last chunk possibly smaller. -/
theorem thesis_C7 (ps : List Para) (h1 : ps ≠ [])
    (h2 : boundariesOf ps = []) :
    detect_sections ps = _fallback_chunking ps ∧
    (detect_sections ps).flatMap Section.paragraphs = ps ∧
    detect_sections ps ≠ [] ∧
    (∀ k, k < (detect_sections ps).length →
      ((detect_sections ps).getD k default).section_type = "chapter" ∧
      ((detect_sections ps).getD k default).name =
        "第" ++ toString (k + 1) ++ "部分" ∧
      ((detect_sections ps).getD k default).paragraphs ≠ [] ∧
      ((detect_sections ps).getD k default).paragraphs.length ≤ 30 ∧
      (k + 1 < (detect_sections ps).length →
        ((detect_sections ps).getD k default).paragraphs.length = 30)) := by
  have hdet : detect_sections ps = _fallback_chunking ps := by
    unfold detect_sections
    rw [if_neg (by simpa [List.isEmpty_iff] using h1), h2]
  have hprops := fallbackAux_props ps.length ps 1 le_rfl
  refine ⟨hdet, ?_, ?_, ?_⟩
  · rw [hdet]
    exact fallbackAux_paras ps.length ps 1 le_rfl
  · rw [hdet]
    exact hprops.1 h1
  · intro k hk
    rw [hdet] at hk ⊢
    unfold _fallback_chunking at hk ⊢
    have hj := hprops.2 k hk
    refine ⟨hj.1, ?_, hj.2.2.1, hj.2.2.2.1, hj.2.2.2.2⟩
    rw [hj.2.1, Nat.add_comm 1 k]

/-- Concrete paragraph list for claim C7's witness: 31 heading-free
paragraphs. -/
def c7ps : List Para := (List.range 31).map (fun i => ⟨Int.ofNat i, "xyz"⟩)

/-- Claim C7 witness: the theorem applied at 31 heading-free paragraphs —
the result is the fallback chunking, and the first of its two chunks holds
exactly 30 paragraphs. -/
theorem thesis_C7_witness :
    detect_sections c7ps = _fallback_chunking c7ps ∧
    ((detect_sections c7ps).getD 0 default).paragraphs.length = 30 :=
  ⟨(thesis_C7 c7ps (by decide) (by decide)).1,
   ((thesis_C7 c7ps (by decide) (by decide)).2.2.2 0 (by decide)).2.2.2.2
     (by decide)⟩

/-- Well-formedness of a built section: non-empty paragraphs, and the
stored bounds are the indices of its first and last paragraphs. -/
def SectionWellFormed (sec : Section) : Prop :=
  sec.paragraphs ≠ [] ∧
  sec.start_para_idx = (sec.paragraphs.headD default).index ∧
  sec.end_para_idx = (sec.paragraphs.getLastD default).index

/-- Head of an append with non-empty left part. -/
theorem headD_append_left {α : Type} [Inhabited α] (l1 l2 : List α)
    (h : l1 ≠ []) : (l1 ++ l2).headD default = l1.headD default := by
  cases l1 with
  | nil => exact absurd rfl h
  | cons a t => rfl

/-- Last of an append with non-empty right part. -/
theorem getLastD_append_right {α : Type} [Inhabited α] (l1 l2 : List α)
    (h : l2 ≠ []) : (l1 ++ l2).getLastD default = l2.getLastD default := by
  rw [List.getLastD_eq_getLast?, List.getLastD_eq_getLast?,
    List.getLast?_append_of_ne_nil _ h]

/-- Sections built from a slice are well-formed. -/
theorem mkSection_wf (n ty : String) (l : List Para) :
    ∀ sec ∈ mkSection n ty l, SectionWellFormed sec := by
  cases l with
  | nil => intro sec h; simp [mkSection] at h
  | cons p rest =>
    intro sec h
    rw [mkSection, List.mem_singleton] at h
    subst h
    refine ⟨List.cons_ne_nil _ _, rfl, ?_⟩
    show ((p :: rest).getLast?.getD p).index =
      ((p :: rest).getLastD default).index
    rw [List.getLastD_eq_getLast?,
      List.getLast?_eq_getLast (p :: rest) (List.cons_ne_nil p rest)]
    rfl

/-- Boundary-built sections are well-formed. -/
theorem buildFrom_wf (ps : List Para) :
    ∀ (bs : List (Nat × String × String)),
      ∀ sec ∈ buildFrom ps bs, SectionWellFormed sec := by
  intro bs
  induction bs with
  | nil => intro sec h; simp [buildFrom] at h
  | cons b bs' ih =>
    rcases b with ⟨pos, n, t⟩
    cases bs' with
    | nil =>
      intro sec h
      exact mkSection_wf n t (ps.drop pos) sec h
    | cons b2 rest =>
      intro sec h
      rw [buildFrom] at h
      rcases List.mem_append.mp h with h1 | h2
      · exact mkSection_wf n t _ sec h1
      · exact ih sec h2

/-- The cover section is well-formed. -/
theorem coverSection_wf (ps : List Para) (pos : Nat) :
    ∀ sec ∈ coverSection ps pos, SectionWellFormed sec := by
  intro sec h
  unfold coverSection at h
  by_cases hp : pos > 0
  · rw [if_pos hp] at h
    exact mkSection_wf _ _ _ sec h
  · rw [if_neg hp] at h
    simp at h

/-- All sections built from the boundary list are well-formed. -/
theorem builtSections_wf (ps : List Para)
    (bs : List (Nat × String × String)) :
    ∀ sec ∈ builtSections ps bs, SectionWellFormed sec := by
  intro sec h
  cases bs with
  | nil => simp [builtSections] at h
  | cons b rest =>
    rcases b with ⟨pos, n, t⟩
    rw [builtSections] at h
    rcases List.mem_append.mp h with h1 | h2
    · exact coverSection_wf ps pos sec h1
    · exact buildFrom_wf ps _ sec h2

/-- Fallback chunks are well-formed. -/
theorem fallbackAux_wf :
    ∀ (n : Nat) (l : List Para) (num : Nat),
      ∀ sec ∈ fallbackAux n l num, SectionWellFormed sec := by
  intro n
  induction n with
  | zero =>
    intro l num sec h
    cases l <;> simp [fallbackAux] at h
  | succ m ih =>
    intro l num sec h
    cases l with
    | nil => simp [fallbackAux] at h
    | cons p rest =>
      rw [fallbackAux] at h
      rcases List.mem_append.mp h with h1 | h2
      · exact mkSection_wf _ _ _ sec h1
      · exact ih _ _ sec h2

/-- Merging two well-formed sections yields a well-formed section. -/
theorem mergeAbsorb_wf (prev sec : Section) (hp : SectionWellFormed prev)
    (hs : SectionWellFormed sec) : SectionWellFormed (mergeAbsorb prev sec) := by
  obtain ⟨hp1, hp2, hp3⟩ := hp
  obtain ⟨hs1, hs2, hs3⟩ := hs
  refine ⟨?_, ?_, ?_⟩
  · show prev.paragraphs ++ sec.paragraphs ≠ []
    intro h
    exact hp1 (List.append_eq_nil.mp h).1
  · show prev.start_para_idx =
      ((prev.paragraphs ++ sec.paragraphs).headD default).index
    rw [headD_append_left _ _ hp1]
    exact hp2
  · show sec.end_para_idx =
      ((prev.paragraphs ++ sec.paragraphs).getLastD default).index
    rw [getLastD_append_right _ _ hs1]
    exact hs3

/-- The merge fold preserves well-formedness. -/
theorem mergeGo_wf :
    ∀ (l racc : List Section),
      (∀ sec ∈ racc, SectionWellFormed sec) →
      (∀ sec ∈ l, SectionWellFormed sec) →
      ∀ sec ∈ mergeGo racc l, SectionWellFormed sec := by
  intro l
  induction l with
  | nil =>
    intro racc hr _ sec hsec
    rw [mergeGo] at hsec
    exact hr sec (List.mem_reverse.mp hsec)
  | cons s rest ih =>
    intro racc hr hl sec hsec
    cases racc with
    | nil =>
      rw [mergeGo] at hsec
      refine ih [s] ?_ (fun x hx => hl x (List.mem_cons_of_mem _ hx)) sec hsec
      intro x hx
      rw [List.mem_singleton] at hx
      rw [hx]
      exact hl s (List.mem_cons_self _ _)
    | cons prev racc' =>
      rw [mergeGo] at hsec
      by_cases hc : (decide (s.paragraphs.length < 3) &&
          s.section_type == prev.section_type) = true
      · rw [if_pos hc] at hsec
        refine ih _ ?_ (fun x hx => hl x (List.mem_cons_of_mem _ hx)) sec hsec
        intro x hx
        rcases List.mem_cons.mp hx with heq | hx'
        · rw [heq]
          exact mergeAbsorb_wf prev s (hr prev (List.mem_cons_self _ _))
            (hl s (List.mem_cons_self _ _))
        · exact hr x (List.mem_cons_of_mem _ hx')
      · rw [if_neg hc] at hsec
        refine ih _ ?_ (fun x hx => hl x (List.mem_cons_of_mem _ hx)) sec hsec
        intro x hx
        rcases List.mem_cons.mp hx with heq | hx'
        · rw [heq]
          exact hl s (List.mem_cons_self _ _)
        · exact hr x hx'

/-- Every section of the pre-dedup list is well-formed. -/
theorem beforeDedup_wf (ps : List Para) :
    ∀ sec ∈ sectionsBeforeDedup ps, SectionWellFormed sec := by
  intro sec hsec
  cases hbs : boundariesOf ps with
  | nil =>
    have heq : sectionsBeforeDedup ps = _fallback_chunking ps := by
      unfold sectionsBeforeDedup
      rw [hbs]
    rw [heq] at hsec
    exact fallbackAux_wf ps.length ps 1 sec hsec
  | cons b rest =>
    have heq : sectionsBeforeDedup ps =
        _merge_small_sections (builtSections ps (b :: rest)) := by
      unfold sectionsBeforeDedup
      rw [hbs]
    rw [heq] at hsec
    unfold _merge_small_sections at hsec
    by_cases hlen : (builtSections ps (b :: rest)).length ≤ 1
    · rw [if_pos hlen] at hsec
      exact builtSections_wf ps _ sec hsec
    · rw [if_neg hlen] at hsec
      exact mergeGo_wf _ [] (by intro x hx; simp at hx)
        (builtSections_wf ps _) sec hsec

/-- Every pre-dedup section's paragraphs form a contiguous slice of the
input. -/
theorem beforeDedup_infix (ps : List Para) :
    ∀ sec ∈ sectionsBeforeDedup ps,
      ∃ pre post, ps = pre ++ sec.paragraphs ++ post := by
  intro sec hsec
  obtain ⟨s, t, hst⟩ := List.append_of_mem hsec
  refine ⟨s.flatMap Section.paragraphs, t.flatMap Section.paragraphs, ?_⟩
  have h1 := sectionsBeforeDedup_paras ps
  rw [hst, List.flatMap_append, List.flatMap_cons] at h1
  rw [← h1, List.append_assoc]

/-- A well-formed contiguous section of an index-sorted paragraph list has
ordered bounds. -/
theorem wf_infix_start_le_end (ps : List Para)
    (hsort : (ps.map Para.index).Sorted (· ≤ ·)) (sec : Section)
    (hwf : SectionWellFormed sec)
    (hinf : ∃ pre post, ps = pre ++ sec.paragraphs ++ post) :
    sec.start_para_idx ≤ sec.end_para_idx := by
  obtain ⟨hne, hstart, hend⟩ := hwf
  obtain ⟨pre, post, hps⟩ := hinf
  have hsub : sec.paragraphs.Sublist ps := by
    rw [hps, List.append_assoc]
    exact (List.sublist_append_left _ post).trans
      (List.sublist_append_right pre _)
  have hmap : (sec.paragraphs.map Para.index).Sorted (· ≤ ·) :=
    List.Pairwise.sublist (List.Sublist.map Para.index hsub) hsort
  cases hpar : sec.paragraphs with
  | nil => exact absurd hpar hne
  | cons q qs =>
    rw [hpar] at hstart hend hmap
    rw [hstart, hend]
    simp only [List.headD_cons]
    have hmem : (q :: qs).getLastD default ∈ q :: qs := by
      rw [List.getLastD_eq_getLast?,
        List.getLast?_eq_getLast (q :: qs) (List.cons_ne_nil q qs)]
      exact List.getLast_mem _
    rcases List.mem_cons.mp hmem with heq | hmem'
    · rw [heq]
    · rw [List.map_cons] at hmap
      exact (List.sorted_cons.mp hmap).1 ((q :: qs).getLastD default).index
        (List.mem_map_of_mem Para.index hmem')

/-- Claim C9: on an index-sorted paragraph list, every final Section has a
non-empty paragraph list that is a contiguous slice of the input in
original order, its start bound is at most its end bound, and the final
sections use pairwise-disjoint paragraph occurrences (their concatenation
is a sublist of the input). -/
theorem thesis_C9 (ps : List Para)
    (hsort : (ps.map Para.index).Sorted (· ≤ ·)) :
    (∀ sec ∈ detect_sections ps,
      sec.paragraphs ≠ [] ∧
      (∃ pre post, ps = pre ++ sec.paragraphs ++ post) ∧
      sec.start_para_idx ≤ sec.end_para_idx) ∧
    ((detect_sections ps).flatMap Section.paragraphs).Sublist ps := by
  refine ⟨?_, detect_flatMap_sublist ps⟩
  intro sec hsec
  have hmem := detect_mem_beforeDedup ps sec hsec
  have hwf := beforeDedup_wf ps sec hmem
  have hinf := beforeDedup_infix ps sec hmem
  exact ⟨hwf.1, hinf, wf_infix_start_le_end ps hsort sec hwf hinf⟩

/-- Claim C9 witness: the theorem applied at the concrete index-sorted
input `c2ps`, with the sortedness hypothesis discharged by computation. -/
theorem thesis_C9_witness :
    (c2ps.map Para.index).Sorted (· ≤ ·) ∧
    ((detect_sections c2ps).flatMap Section.paragraphs).Sublist c2ps :=
  ⟨by decide, (thesis_C9 c2ps (by decide)).2⟩

/-- Python's `max(best :: gs, key=f)` on a strictly ascending list: the
result is a member whose key dominates every member, and it precedes every
member that ties with it (first-of-ties). -/
theorem pyMaxKey_spec (f : Nat → Nat) :
    ∀ (gs : List Nat) (best : Nat),
      (best :: gs).Sorted (· < ·) →
      pyMaxKey f best gs ∈ best :: gs ∧
      ∀ j ∈ best :: gs, f j < f (pyMaxKey f best gs) ∨
        (f j = f (pyMaxKey f best gs) ∧ pyMaxKey f best gs ≤ j) := by
  intro gs
  induction gs with
  | nil =>
    intro best _
    refine ⟨List.mem_singleton.mpr rfl, ?_⟩
    intro j hj
    rw [List.mem_singleton] at hj
    rw [hj]
    right
    exact ⟨rfl, le_refl _⟩
  | cons g gs' ih =>
    intro best hsort
    have hblt : best < g := (List.sorted_cons.mp hsort).1 g (List.mem_cons_self _ _)
    have hsortg : (g :: gs').Sorted (· < ·) := (List.sorted_cons.mp hsort).2
    rw [pyMaxKey]
    by_cases hfg : f g > f best
    · rw [if_pos hfg]
      have ih' := ih g hsortg
      refine ⟨List.mem_cons_of_mem _ ih'.1, ?_⟩
      intro j hj
      rcases List.mem_cons.mp hj with heq | hj'
      · left
        have hgm := ih'.2 g (List.mem_cons_self _ _)
        rw [heq]
        rcases hgm with h | ⟨h, -⟩ <;> omega
      · exact ih'.2 j hj'
    · rw [if_neg hfg]
      have hsortb : (best :: gs').Sorted (· < ·) := by
        rw [List.sorted_cons] at hsort ⊢
        obtain ⟨hb, -⟩ := hsort
        exact ⟨fun b hb' => hb b (List.mem_cons_of_mem _ hb'),
          (List.sorted_cons.mp hsortg).2⟩
      have ih' := ih best hsortb
      constructor
      · rcases List.mem_cons.mp ih'.1 with heq | hmem
        · rw [heq]
          exact List.mem_cons_self _ _
        · exact List.mem_cons_of_mem _ (List.mem_cons_of_mem _ hmem)
      · intro j hj
        rcases List.mem_cons.mp hj with heq | hj'
        · rw [heq]
          exact ih'.2 best (List.mem_cons_self _ _)
        · rcases List.mem_cons.mp hj' with heqg | hj''
          · have hbm := ih'.2 best (List.mem_cons_self _ _)
            have hmb : pyMaxKey f best gs' = best ∨
                pyMaxKey f best gs' ∈ gs' := List.mem_cons.mp ih'.1
            rcases hbm with h | ⟨h, hmle⟩
            · left
              rw [heqg]
              omega
            · by_cases hfg2 : f j = f (pyMaxKey f best gs')
              · right
                refine ⟨hfg2, ?_⟩
                rw [heqg]
                omega
              · left
                rw [heqg] at hfg2 ⊢
                omega
          · exact ih'.2 j (List.mem_cons_of_mem _ hj'')

/-- The group of an index is strictly ascending. -/
theorem dedupGroup_sorted (secs : List Section) (i : Nat) :
    (dedupGroup secs i).Sorted (· < ·) :=
  List.Pairwise.filter _ (List.pairwise_lt_range _)

/-- An in-range index belongs to its own group. -/
theorem mem_dedupGroup_self (secs : List Section) (i : Nat)
    (h : i < secs.length) : i ∈ dedupGroup secs i := by
  unfold dedupGroup
  rw [List.mem_filter]
  exact ⟨List.mem_range.mpr h, by simp⟩

/-- Enumeration indices are in range. -/
theorem enum_fst_lt {α : Type} :
    ∀ (l : List α) (n : Nat) (p : Nat × α), p ∈ List.enumFrom n l →
      p.1 < n + l.length := by
  intro l
  induction l with
  | nil => intro n p hp; simp [List.enumFrom] at hp
  | cons a t ih =>
    intro n p hp
    rw [List.enumFrom_cons] at hp
    rcases List.mem_cons.mp hp with heq | hp'
    · rw [heq]
      simp only [List.length_cons]
      omega
    · have := ih (n + 1) p hp'
      simp only [List.length_cons]
      omega

/-- Pointwise agreement of the removal test with the spec-side keep
test. -/
theorem keep_eq (secs : List Section) (i : Nat) (h : i < secs.length) :
    (!removedIdx secs i) = keepSpec secs i := by
  unfold removedIdx keepSpec
  cases hn : (secNorm secs i == "") with
  | true => simp [hn]
  | false =>
    have hmem0 : i ∈ dedupGroup secs i := mem_dedupGroup_self secs i h
    cases hg : dedupGroup secs i with
    | nil =>
      rw [hg] at hmem0
      cases hmem0
    | cons g0 gs =>
      rw [hg] at hmem0
      simp only [Bool.false_eq_true, if_false, Bool.false_or]
      show (!(decide (2 ≤ (g0 :: gs).length) &&
          !(i == pyMaxKey (secCount secs) g0 gs))) =
        (decide ((g0 :: gs).length ≤ 1) || (g0 :: gs).all
          (fun j => decide (secCount secs j < secCount secs i) ||
            (secCount secs j == secCount secs i && decide (i ≤ j))))
      by_cases hlen : 2 ≤ (g0 :: gs).length
      · have hnle : ¬((g0 :: gs).length ≤ 1) := by omega
        have hsorted : (g0 :: gs).Sorted (· < ·) := by
          have hsg := dedupGroup_sorted secs i
          rw [hg] at hsg
          exact hsg
        have hspec := pyMaxKey_spec (secCount secs) gs g0 hsorted
        rw [decide_eq_true hlen, decide_eq_false hnle, Bool.true_and,
          Bool.not_not, Bool.false_or]
        cases him : (i == pyMaxKey (secCount secs) g0 gs) with
        | true =>
          rw [beq_iff_eq] at him
          symm
          rw [List.all_eq_true]
          intro j hj
          rcases hspec.2 j hj with hlt | ⟨heq2, hle2⟩
          · rw [← him] at hlt
            simp [hlt]
          · rw [← him] at heq2 hle2
            simp [heq2, hle2]
        | false =>
          symm
          cases hb : ((g0 :: gs).all
              (fun j => decide (secCount secs j < secCount secs i) ||
                (secCount secs j == secCount secs i && decide (i ≤ j)))) with
          | false => rfl
          | true =>
            exfalso
            rw [List.all_eq_true] at hb
            have hPm := hb (pyMaxKey (secCount secs) g0 gs) hspec.1
            have hi2 := hspec.2 i hmem0
            simp only [Bool.or_eq_true, Bool.and_eq_true, decide_eq_true_eq,
              beq_iff_eq] at hPm
            rcases hPm with h1 | ⟨h1, h2⟩ <;> rcases hi2 with h3 | ⟨h3, h4⟩
            · omega
            · omega
            · omega
            · exact absurd (Nat.le_antisymm h2 h4)
                (beq_eq_false_iff_ne.mp him)
      · have hgs : gs = [] := by
          cases gs with
          | nil => rfl
          | cons x xs => simp [List.length_cons] at hlen
        subst hgs
        simp

/-- Spec-equivalent form of dedup on short lists. -/
theorem dedupSpec_short (secs : List Section) (h : secs.length ≤ 1) :
    dedupSpec secs = secs := by
  unfold dedupSpec
  have hall : ∀ p ∈ secs.enum, keepSpec secs p.1 = true := by
    intro p _
    unfold keepSpec
    have hlen : (dedupGroup secs p.1).length ≤ 1 := by
      have h1 : (dedupGroup secs p.1).length ≤
          (List.range secs.length).length := List.length_filter_le _ _
      rw [List.length_range] at h1
      omega
    simp [hlen]
  rw [List.filter_eq_self.mpr hall]
  exact List.enum_map_snd secs

/-- Concrete section list for claim C8's counterexample: two sections
whose names are bare digits, so both normalize to the empty string. -/
def c8secs : List Section :=
  [⟨"1", "chapter", 0, 0, [⟨0, "x"⟩]⟩,
   ⟨"2", "chapter", 1, 2, [⟨1, "y"⟩, ⟨2, "z"⟩]⟩]

/-- Claim C8 counterexample: the two sections of `c8secs` normalize to the
same (empty) name and have different paragraph counts, yet deduplication
keeps both — sections with an empty normalized name are exempted from
grouping (`if norm:`), refuting the claim that in every group of size
greater than 1 only the section with the most paragraphs survives. -/
theorem thesis_C8_cex :
    _normalize_section_name "1" = _normalize_section_name "2" ∧
    _normalize_section_name "1" = "" ∧
    (c8secs.getD 0 default).paragraphs.length <
      (c8secs.getD 1 default).paragraphs.length ∧
    _deduplicate_sections c8secs = c8secs := by decide

/-- Claim C8 (amended): the deduplication pass equals the spec-side
description amended with the empty-name exemption — group sections by
normalized name, except that sections whose normalized name is empty are
never grouped or discarded; in every group of size greater than 1 exactly
the first section attaining the maximal paragraph count survives; the
relative order of survivors is unchanged. -/
theorem thesis_C8 (secs : List Section) :
    _deduplicate_sections secs = dedupSpec secs ∧
    (_deduplicate_sections secs).Sublist secs := by
  refine ⟨?_, dedup_sublist secs⟩
  unfold _deduplicate_sections
  by_cases h : secs.length ≤ 1
  · rw [if_pos h, dedupSpec_short secs h]
  · rw [if_neg h]
    unfold dedupSpec
    congr 1
    apply List.filter_congr
    intro p hp
    have hlt : p.1 < secs.length := by
      have := enum_fst_lt secs 0 p (by rw [← List.enum]; exact hp)
      omega
    exact keep_eq secs p.1 hlt
